import Mathlib

set_option maxRecDepth 4000

namespace Mdv

/-- Whitespace test for a character, embedding the whitespace class used by the
JavaScript code (the separator class of the wrap regular expression and the
String.prototype.trim calls), restricted to the ASCII range the sources use. -/
def isWs (c : Char) : Bool :=
  c == ' ' || c == '\t' || c == '\n' || c == '\r' || c == '\x0b' || c == '\x0c'

/-- Embeds JavaScript String.prototype.split with separator a newline: the list
of newline-delimited segments of a character list (never empty; a trailing
newline yields a trailing empty segment, as in JavaScript). -/
def splitNl : List Char → List (List Char)
  | [] => [[]]
  | c :: cs =>
      if c = '\n' then [] :: splitNl cs
      else
        match splitNl cs with
        | [] => [[c]]
        | l :: ls => (c :: l) :: ls

/-- Embeds the marked token shapes consumed by src/src/document.ts: the
discriminated type tag together with exactly the payload fields the layout
code reads (heading depth and text, paragraph text, code text, blockquote
nested tokens, list items, raw html, table rows). -/
inductive Token where
  | heading (depth : Nat) (text : List Char)
  | paragraph (text : List Char)
  | code (text : List Char)
  | blockquote (tokens : List Token)
  | list (items : List (List Char))
  | hr
  | html (raw : List Char)
  | table (rows : List (List (List Char)))
  | space
  | other (raw : List Char)

/-- Embeds computeWrappedLines from src/src/document.ts: a guard for empty text
or a non-positive width, otherwise the ceiling of length over width (the
JavaScript Math.ceil of the division, computed here as (len + w - 1) / w). -/
def computeWrappedLines (text : List Char) (width : Int) : Nat :=
  if text = [] ∨ width ≤ 0 then 1
  else max 1 ((text.length + width.toNat - 1) / width.toNat)

mutual

/-- Embeds computeBlockLineCount from src/src/document.ts: the per-type
footprint of a block token at a given width. -/
def computeBlockLineCount : Token → Int → Nat
  | .heading _ text, width => computeWrappedLines text width
  | .paragraph text, width => computeWrappedLines text width
  | .code text, _ => (splitNl text).length
  | .blockquote ts, width => max 1 (sumLineCounts ts (width - 2))
  | .list items, _ => items.length
  | .hr, _ => 1
  | .html raw, _ =>
      let n := ((splitNl raw).filter (fun l => !(l.all isWs))).length
      if n = 0 then 1 else n
  | .table rows, _ => 1 + rows.length
  | .space, _ => 1
  | .other _, _ => 1

/-- Embeds the loop over nested blockquote tokens inside computeBlockLineCount. -/
def sumLineCounts : List Token → Int → Nat
  | [], _ => 0
  | t :: ts, width => computeBlockLineCount t width + sumLineCounts ts width

end

mutual

/-- The footprint rules exactly as claim C3 states them: the heading and
paragraph rule verbatim, the code rule as one more than the number of newline
characters (with an explicit minimum of 1), the blockquote rule as a floored
recursive sum at width - 2, one line per list item, one line for a rule, the
non-blank newline-delimited lines of raw html with a minimum of 1, one plus
the number of data rows for a table, and 1 for anything else. -/
def specBlockLineCount : Token → Int → Nat
  | .heading _ text, width =>
      if text = [] ∨ width ≤ 0 then 1
      else max 1 ((text.length + width.toNat - 1) / width.toNat)
  | .paragraph text, width =>
      if text = [] ∨ width ≤ 0 then 1
      else max 1 ((text.length + width.toNat - 1) / width.toNat)
  | .code text, _ => max 1 (text.count '\n' + 1)
  | .blockquote ts, width => max 1 (specSumLineCounts ts (width - 2))
  | .list items, _ => items.length
  | .hr, _ => 1
  | .html raw, _ => max 1 (((splitNl raw).filter (fun l => !(l.all isWs))).length)
  | .table rows, _ => 1 + rows.length
  | .space, _ => 1
  | .other _, _ => 1

/-- The recursive sum in the blockquote rule of claim C3. -/
def specSumLineCounts : List Token → Int → Nat
  | [], _ => 0
  | t :: ts, width => specBlockLineCount t width + specSumLineCounts ts width

end

/-- Embeds the Block interface of src/src/document.ts: a token together with
its two derived layout integers. -/
structure Block where
  token : Token
  startLine : Nat
  lineCount : Nat

instance : Inhabited Block := ⟨⟨.hr, 0, 0⟩⟩

/-- Indexing into a block list with the default block (the embedding of the
JavaScript array index, which is only ever used in range). -/
def getB (blocks : List Block) (i : Nat) : Block := blocks.getD i default

/-- Embeds the Heading interface of src/src/document.ts. -/
structure Heading where
  blockIndex : Nat
  depth : Nat
  text : List Char
deriving DecidableEq

/-- Embeds the Document interface of src/src/document.ts. -/
structure Document where
  blocks : List Block
  headings : List Heading
  totalLines : Nat

/-- True exactly on the space tokens that parseBlocks filters out. -/
def Token.isSpaceTok : Token → Bool
  | .space => true
  | _ => false

/-- Embeds parseBlocks from src/src/document.ts; the external marked lexer is
passed in as a parameter. Empty input short-circuits to an empty list, space
tokens are filtered out, and every remaining token is wrapped as a Block with
uninitialised positions. -/
def parseBlocks (lex : List Char → List Token) (content : List Char) : List Block :=
  if content = [] then []
  else ((lex content).filter (fun t => !(Token.isSpaceTok t))).map (fun t => ⟨t, 0, 0⟩)

/-- Embeds the loop of computeLinePositions from src/src/document.ts,
generalised over the running start line: each block is assigned the running
total as its start line and its recomputed footprint as its line count.  The
streaming indexer in processBuffer runs this same loop starting from the
document's current totalLines. -/
def indexFrom (width : Int) (start : Nat) : List Block → List Block
  | [] => []
  | b :: bs =>
      let c := computeBlockLineCount b.token width
      ⟨b.token, start, c⟩ :: indexFrom width (start + c) bs

/-- Embeds computeLinePositions from src/src/document.ts (the running total
starts at 0). -/
def computeLinePositions (blocks : List Block) (width : Int) : List Block :=
  indexFrom width 0 blocks

/-- The heading entries contributed by one token at a given block index. -/
def headingOf (i : Nat) : Token → List Heading
  | .heading d text => [⟨i, d, text⟩]
  | _ => []

/-- Embeds the heading-collection loop of createDocument from
src/src/document.ts. -/
def collectHeadings : List Block → Nat → List Heading
  | [], _ => []
  | b :: bs, i => headingOf i b.token ++ collectHeadings bs (i + 1)

/-- Embeds the totalLines computation of createDocument: the last block's
startLine plus lineCount, or 0 when there are no blocks. -/
def docTotal : List Block → Nat
  | [] => 0
  | [b] => b.startLine + b.lineCount
  | _ :: b :: bs => docTotal (b :: bs)

/-- Embeds createDocument from src/src/document.ts (lexer abstracted). -/
def createDocument (lex : List Char → List Token) (content : List Char) (width : Int) :
    Document :=
  let blocks := computeLinePositions (parseBlocks lex content) width
  { blocks := blocks
    headings := collectHeadings blocks 0
    totalLines := docTotal blocks }

/-- The layout invariant of the specification: the first block starts at the
running total and every further block starts where the previous one ended. -/
def chainedFrom (s : Nat) : List Block → Bool
  | [] => true
  | b :: bs => b.startLine == s && chainedFrom (s + b.lineCount) bs

/-- The running total after laying out a block list from a given start line. -/
def endFrom (s : Nat) : List Block → Nat
  | [] => s
  | b :: bs => endFrom (s + b.lineCount) bs

/-- Every block of the list occupies at least one line. -/
def allCountsPos (blocks : List Block) : Bool :=
  blocks.all (fun b => !(b.lineCount == 0))

/-- Embeds the binary-search loop of findBlockAtLine from src/src/document.ts.
The fuel argument bounds the number of iterations; the interval shrinks at
every step, so any fuel of at least hi - lo iterations reaches the loop's
exit. -/
def findLoop (blocks : List Block) (line : Int) : Nat → Nat → Nat → Nat
  | 0, lo, _ => lo
  | fuel + 1, lo, hi =>
      if lo < hi then
        let mid := (lo + hi + 1) / 2
        if ((getB blocks mid).startLine : Int) ≤ line then
          findLoop blocks line fuel mid hi
        else
          findLoop blocks line fuel lo (mid - 1)
      else lo

/-- Embeds findBlockAtLine from src/src/document.ts: -1 for an empty document,
otherwise the rightmost block whose startLine is at most the queried line,
found by binary search. -/
def findBlockAtLine (doc : Document) (line : Int) : Int :=
  if doc.blocks.isEmpty then -1
  else (findLoop doc.blocks line doc.blocks.length 0 (doc.blocks.length - 1) : Nat)

/-- Embeds getVisibleBlocks from src/src/document.ts: locate the block at the
scroll line, then walk forward while blocks begin before the window's end. -/
def getVisibleBlocks (doc : Document) (startLine viewportHeight : Int) : List Block :=
  if doc.blocks.isEmpty then []
  else
    let firstIdx := findBlockAtLine doc startLine
    if firstIdx = -1 then []
    else
      let endLine := startLine + viewportHeight
      (doc.blocks.drop firstIdx.toNat).takeWhile (fun b => (b.startLine : Int) < endLine)

/-- Embeds the mutable state of createStreamingDocument from
src/src/document.ts: the document, the unconsumed text buffer and the
completion flag. -/
structure SState where
  document : Document
  buffer : List Char
  isComplete : Bool

/-- Embeds the initial state of createStreamingDocument. -/
def initialSState : SState := ⟨⟨[], [], 0⟩, [], false⟩

/-- Embeds the per-block body of the processBuffer loop: lay the block out at
the document's current total, extend the heading index with the block's index,
push the block and advance the total. -/
def pushBlock (width : Int) (d : Document) (b : Block) : Document :=
  let c := computeBlockLineCount b.token width
  { blocks := d.blocks ++ [⟨b.token, d.totalLines, c⟩]
    headings := d.headings ++ headingOf d.blocks.length b.token
    totalLines := d.totalLines + c }

/-- Embeds the whole loop of processBuffer over the freshly parsed blocks. -/
def pushBlocks (width : Int) (d : Document) : List Block → Document
  | [] => d
  | b :: bs => pushBlocks width (pushBlock width d b) bs

/-- Embeds buffer.lastIndexOf applied to a two-newline needle, as used by
findCompleteContent: the index of the last occurrence of two consecutive
newlines. -/
def lastNlNl : List Char → Option Nat
  | [] => none
  | [_] => none
  | a :: b :: rest =>
      match lastNlNl (b :: rest) with
      | some i => some (i + 1)
      | none => if a = '\n' ∧ b = '\n' then some 0 else none

/-- Embeds findCompleteContent from src/src/document.ts: the buffer up to and
including the last blank line, or nothing when no blank line exists. -/
def findCompleteContent (buffer : List Char) : List Char :=
  match lastNlNl buffer with
  | none => []
  | some i => buffer.take (i + 2)

/-- Embeds processBuffer from createStreamingDocument in src/src/document.ts:
an empty buffer or an empty complete prefix flushes nothing; a parse that
yields no blocks leaves the buffer untouched; otherwise the new blocks are
laid out from the current total and the consumed prefix is dropped from the
buffer (all of it under force). -/
def processBuffer (lex : List Char → List Token) (width : Int) (force : Bool)
    (st : SState) : SState :=
  if st.buffer = [] then st
  else
    let content := if force then st.buffer else findCompleteContent st.buffer
    if content = [] then st
    else
      let newBlocks := parseBlocks lex content
      if newBlocks.isEmpty then st
      else
        { st with
          document := pushBlocks width st.document newBlocks
          buffer := if force then [] else st.buffer.drop content.length }

/-- Embeds the append method of createStreamingDocument: concatenate the
fragment into the buffer, then attempt a non-forced flush. -/
def appendS (lex : List Char → List Token) (width : Int) (st : SState)
    (frag : List Char) : SState :=
  processBuffer lex width false { st with buffer := st.buffer ++ frag }

/-- Embeds the finalize method of createStreamingDocument: force-flush the
whole buffer and set the completion flag. -/
def finalizeS (lex : List Char → List Token) (width : Int) (st : SState) : SState :=
  let st' := processBuffer lex width true st
  { st' with isComplete := true }

/-- One call against a streaming document: an append of a fragment, or a
finalize. -/
inductive StreamOp where
  | app (frag : List Char)
  | fin

/-- Runs a sequence of append and finalize calls against a streaming state. -/
def runOps (lex : List Char → List Token) (width : Int) : SState → List StreamOp → SState
  | st, [] => st
  | st, .app f :: ops => runOps lex width (appendS lex width st f) ops
  | st, .fin :: ops => runOps lex width (finalizeS lex width st) ops

/-- Runs a sequence of appends only. -/
def runAppends (lex : List Char → List Token) (width : Int) : SState → List (List Char) → SState
  | st, [] => st
  | st, f :: fs => runAppends lex width (appendS lex width st f) fs

/-- The document obtained by streaming a list of fragments and then calling
finalize, as in claim C4. -/
def streamDocument (lex : List Char → List Token) (width : Int)
    (frags : List (List Char)) : Document :=
  (finalizeS lex width (runAppends lex width initialSState frags)).document

/-- Embeds the Style interface of the renderer module: six independent
optional attributes (absent and explicitly-false booleans are distinct, as
they are under the JavaScript strict equality used by stylesEqual). -/
structure Style where
  fg : Option (List Char) := none
  bg : Option (List Char) := none
  bold : Option Bool := none
  italic : Option Bool := none
  underline : Option Bool := none
  dim : Option Bool := none
deriving DecidableEq

/-- Embeds the StyledSpan interface of the renderer module. -/
structure StyledSpan where
  text : List Char
  style : Style
deriving DecidableEq

/-- Embeds the RenderedLine interface of the renderer module. -/
structure RenderedLine where
  spans : List StyledSpan
deriving DecidableEq

/-- Embeds stylesEqual from the renderer module: field-by-field strict
equality of the six attributes. -/
def stylesEqual (a b : Style) : Bool :=
  a.fg == b.fg && a.bg == b.bg && a.bold == b.bold && a.italic == b.italic &&
    a.underline == b.underline && a.dim == b.dim

/-- Embeds the word tokenisation of wrapSpans: the JavaScript split on the
whitespace-run separator keeps the separators, and empty pieces are skipped,
so each span text becomes its list of maximal whitespace or non-whitespace
runs. -/
def splitRuns : List Char → List (List Char)
  | [] => []
  | c :: cs =>
      match splitRuns cs with
      | [] => [[c]]
      | [] :: rs => [c] :: rs
      | (d :: ds) :: rs =>
          if isWs c == isWs d then (c :: d :: ds) :: rs
          else [c] :: (d :: ds) :: rs

/-- Embeds the fits-branch push of wrapSpans: the word is merged into the
line's last span when the styles are equal, otherwise appended as a new
span. -/
def appendMerge : List StyledSpan → List Char → Style → List StyledSpan
  | [], word, st => [⟨word, st⟩]
  | [l], word, st =>
      if stylesEqual l.style st then [⟨l.text ++ word, l.style⟩]
      else [l, ⟨word, st⟩]
  | x :: y :: rest, word, st => x :: appendMerge (y :: rest) word st

/-- Embeds the mutable locals of wrapSpans: the closed lines, the line being
built, and its cumulative width. -/
structure WrapState where
  lines : List RenderedLine
  currentLine : List StyledSpan
  currentWidth : Nat

/-- Embeds the body of the word loop of wrapSpans: a word that fits is pushed
onto the current line, a word that does not fit closes the current line (when
non-empty) and starts a new one holding just that word. -/
def wrapStep (width : Int) (st : WrapState) (style : Style) (word : List Char) :
    WrapState :=
  if (st.currentWidth + word.length : Int) ≤ width then
    { st with
      currentLine := appendMerge st.currentLine word style
      currentWidth := st.currentWidth + word.length }
  else
    { lines := st.lines ++ (if st.currentLine.isEmpty then [] else [⟨st.currentLine⟩])
      currentLine := [⟨word, style⟩]
      currentWidth := word.length }

/-- Embeds the word loop of wrapSpans over one span's words. -/
def wrapWords (width : Int) (style : Style) : WrapState → List (List Char) → WrapState
  | st, [] => st
  | st, w :: ws => wrapWords width style (wrapStep width st style w) ws

/-- Embeds the span loop of wrapSpans. -/
def wrapSpansGo (width : Int) : WrapState → List StyledSpan → WrapState
  | st, [] => st
  | st, s :: ss => wrapSpansGo width (wrapWords width s.style st (splitRuns s.text)) ss

/-- Embeds wrapSpans from the renderer module. -/
def wrapSpans (spans : List StyledSpan) (width : Int) : List RenderedLine :=
  let st := wrapSpansGo width ⟨[], [], 0⟩ spans
  let lines := st.lines ++ (if st.currentLine.isEmpty then [] else [⟨st.currentLine⟩])
  if lines.isEmpty then [⟨[⟨[], {}⟩]⟩] else lines

/-- Embeds renderParagraph from the renderer module, with the flattening of
inline tokens passed in as a parameter: the flattened spans (or the raw text
as one unstyled span when there are none) greedily wrapped. -/
def renderParagraph (inlineSpans : List StyledSpan) (text : List Char)
    (width : Int) : List RenderedLine :=
  let spans := if inlineSpans.isEmpty then [⟨text, {}⟩] else inlineSpans
  wrapSpans spans width

/-- The styled word stream of a span list: each span's text split into maximal
runs, every run carrying its span's style — claim C9's words of the flattened
inline spans. -/
def wordStream (spans : List StyledSpan) : List (Style × List Char) :=
  (spans.map (fun s => (splitRuns s.text).map (fun w => (s.style, w)))).flatten

/-- The state of the greedy grouping of claim C9: closed lines of words, the
open line, and its cumulative width. -/
structure GroupState where
  groups : List (List (Style × List Char))
  cur : List (Style × List Char)
  curWidth : Nat

/-- The greedy rule exactly as claim C9 states it: a word is appended to the
current line while the line's cumulative character width stays within the
wrap width; a word that does not fit starts a new line. -/
def greedyStep (width : Int) (st : GroupState) (w : Style × List Char) : GroupState :=
  if (st.curWidth + w.2.length : Int) ≤ width then
    { st with cur := st.cur ++ [w], curWidth := st.curWidth + w.2.length }
  else
    { groups := st.groups ++ (if st.cur.isEmpty then [] else [st.cur])
      cur := [w]
      curWidth := w.2.length }

/-- The greedy grouping loop of claim C9. -/
def greedyGo (width : Int) : GroupState → List (Style × List Char) → GroupState
  | st, [] => st
  | st, w :: ws => greedyGo width (greedyStep width st w) ws

/-- The greedy partition of a word stream into lines, as claim C9 states it. -/
def greedyGroups (width : Int) (ws : List (Style × List Char)) :
    List (List (Style × List Char)) :=
  let st := greedyGo width ⟨[], [], 0⟩ ws
  st.groups ++ (if st.cur.isEmpty then [] else [st.cur])

/-- Merging the adjacent equal-style words of one greedy line into spans —
claim C9's merge rule. -/
def mergeWords (g : List (Style × List Char)) : List StyledSpan :=
  g.foldl (fun acc w => appendMerge acc w.2 w.1) []

/-- The wrap algorithm exactly as claim C9 describes it: greedily partition
the word stream into lines, merge adjacent equal-style words within each
line, and fall back to a single line holding one empty unstyled span when
there are no lines at all. -/
def wrapSpansSpec (spans : List StyledSpan) (width : Int) : List RenderedLine :=
  let lines := (greedyGroups width (wordStream spans)).map (fun g => ⟨mergeWords g⟩)
  if lines.isEmpty then [⟨[⟨[], {}⟩]⟩] else lines

/-- The total character width of a rendered line. -/
def lineWidth (l : RenderedLine) : Nat :=
  (l.spans.map (fun s => s.text.length)).sum

/-- A single unsplittable word: a non-empty run of characters of one
whitespace class. -/
def isRun : List Char → Bool
  | [] => false
  | c :: cs => cs.all (fun d => isWs d == isWs c)

/-- JavaScript truthiness of an optional boolean attribute. -/
def truthyB : Option Bool → Bool
  | some true => true
  | _ => false

/-- JavaScript truthiness of an optional string attribute. -/
def truthyS : Option (List Char) → Bool
  | some (_ :: _) => true
  | _ => false

/-- The value of one case-insensitive hex digit. -/
def hexVal (c : Char) : Option Nat :=
  if '0' ≤ c ∧ c ≤ '9' then some (c.toNat - '0'.toNat)
  else if 'a' ≤ c ∧ c ≤ 'f' then some (c.toNat - 'a'.toNat + 10)
  else if 'A' ≤ c ∧ c ≤ 'F' then some (c.toNat - 'A'.toNat + 10)
  else none

/-- Exactly six case-insensitive hex digits, decoded into the three colour
bytes (two digits per byte, as parseInt with base 16 reads the capture
groups). -/
def sixHex : List Char → Option (Nat × Nat × Nat)
  | [a, b, c, d, e, f] =>
      match hexVal a, hexVal b, hexVal c, hexVal d, hexVal e, hexVal f with
      | some va, some vb, some vc, some vd, some ve, some vf =>
          some (16 * va + vb, 16 * vc + vd, 16 * ve + vf)
      | _, _, _, _, _, _ => none
  | _ => none

/-- Embeds hexToRgb from src/src/viewer.ts: the anchored regular expression
with an optional leading hash followed by exactly six case-insensitive hex
digits, decoded into the three colour bytes. -/
def hexToRgb (hex : List Char) : Option (Nat × Nat × Nat) :=
  match hex with
  | '#' :: rest => sixHex rest
  | l => sixHex l

/-- The colour gate exactly as claim C8 writes its pattern: a mandatory
leading hash followed by exactly six case-insensitive hex digits. -/
def strictHashColor : List Char → Option (Nat × Nat × Nat)
  | '#' :: rest => sixHex rest
  | _ => none

/-- The colour gate as the source regular expression actually reads: the
leading hash is optional. -/
def optHashColor (s : List Char) : Option (Nat × Nat × Nat) :=
  match s with
  | '#' :: rest => sixHex rest
  | rest => sixHex rest

/-- The decimal digits of a number, as the JavaScript join renders codes. -/
def natChars (n : Nat) : List Char := Nat.toDigits 10 n

/-- Embeds codes.join with a semicolon separator from spanToAnsi. -/
def joinCodes : List Nat → List Char
  | [] => []
  | [n] => natChars n
  | n :: rest => natChars n ++ ';' :: joinCodes rest

/-- Embeds one colour branch of spanToAnsi: the truthiness guard on the
optional colour string, then hexToRgb, then the five pushed codes. -/
def colorCodes (base : Nat) (o : Option (List Char)) : List Nat :=
  if truthyS o then
    match hexToRgb (o.getD []) with
    | some (r, g, b) => [base, 2, r, g, b]
    | none => []
  else []

/-- One colour branch exactly as claim C8 states it: the colour contributes
its five codes exactly when the given pattern gate accepts it. -/
def specColorCodes (gate : List Char → Option (Nat × Nat × Nat)) (base : Nat)
    (o : Option (List Char)) : List Nat :=
  match o with
  | some s =>
      match gate s with
      | some (r, g, b) => [base, 2, r, g, b]
      | none => []
  | none => []

/-- Embeds spanToAnsi from src/src/viewer.ts: SGR codes are collected in the
order bold, dim, italic, underline, foreground, background; a span with no
codes is the bare text, otherwise the text is wrapped in the escape sequence
and a trailing reset. -/
def spanToAnsi (span : StyledSpan) : List Char :=
  let st := span.style
  let codes : List Nat :=
    (if truthyB st.bold then [1] else []) ++
    (if truthyB st.dim then [2] else []) ++
    (if truthyB st.italic then [3] else []) ++
    (if truthyB st.underline then [4] else []) ++
    colorCodes 38 st.fg ++
    colorCodes 48 st.bg
  if codes.isEmpty then span.text
  else '\x1b' :: '[' :: (joinCodes codes ++ 'm' :: (span.text ++ ['\x1b', '[', '0', 'm']))

/-- The ANSI conversion exactly as claim C8 states it, parameterised by the
colour gate: codes in the order bold (1), dim (2), italic (3), underline (4),
then the 38;2;r;g;b foreground and 48;2;r;g;b background contributed exactly
when the gate accepts the colour; the bare text when no codes apply, otherwise
the escape-bracketed code list, the text, and a reset. -/
def spanToAnsiWith (gate : List Char → Option (Nat × Nat × Nat))
    (span : StyledSpan) : List Char :=
  let st := span.style
  let codes : List Nat :=
    (if truthyB st.bold then [1] else []) ++
    (if truthyB st.dim then [2] else []) ++
    (if truthyB st.italic then [3] else []) ++
    (if truthyB st.underline then [4] else []) ++
    specColorCodes gate 38 st.fg ++
    specColorCodes gate 48 st.bg
  if codes.isEmpty then span.text
  else '\x1b' :: '[' :: (joinCodes codes ++ 'm' :: (span.text ++ ['\x1b', '[', '0', 'm']))

/-- Embeds the line-collection loop of renderStructured from
src/src/viewer.ts with renderBlock passed in as a parameter: each visible
block's rendered lines, after the scrolled-past ones, are pushed while fewer
than height lines have been rendered. -/
def collectLines (rb : Block → List RenderedLine) (scroll : Int) (height : Nat) :
    List Block → Nat → List RenderedLine
  | [], _ => []
  | b :: bs, done =>
      if height ≤ done then []
      else
        let rendered := rb b
        let skip := (scroll - (b.startLine : Int)).toNat
        let taken := (rendered.drop skip).take (height - done)
        taken ++ collectLines rb scroll height bs (done + taken.length)

/-- The blank padding line of renderStructured. -/
def emptyLine : RenderedLine := ⟨[⟨[], {}⟩]⟩

/-- Embeds renderStructured from src/src/viewer.ts, with renderBlock passed in
as a parameter: the collected visible lines padded with blank lines up to the
viewport height. -/
def renderStructured (d : Document) (rb : Block → List RenderedLine)
    (scroll : Int) (height : Nat) : List RenderedLine :=
  let visible := getVisibleBlocks d scroll (height : Int)
  let allLines := collectLines rb scroll height visible 0
  allLines ++ List.replicate (height - allLines.length) emptyLine

/-- Embeds renderLineToAnsi from src/src/viewer.ts. -/
def renderLineToAnsi (l : RenderedLine) : List Char :=
  (l.spans.map spanToAnsi).flatten

/-- Embeds the render method of the viewer: the structured render mapped
through the ANSI adapter. -/
def render (d : Document) (rb : Block → List RenderedLine) (scroll : Int)
    (height : Nat) : List (List Char) :=
  (renderStructured d rb scroll height).map renderLineToAnsi

/-- The fence delimiter character (a backquote). -/
def tick : Char := Char.ofNat 96

/-- A line containing only whitespace, or nothing. -/
def isBlankLine (l : List Char) : Bool := l.all isWs

/-- A code-fence line: three fence characters at the start of the line. -/
def isFenceLine : List Char → Bool
  | a :: b :: c :: _ => a == tick && b == tick && c == tick
  | _ => false

/-- The number of leading hash characters of a line. -/
def hashCount : List Char → Nat
  | '#' :: rest => hashCount rest + 1
  | _ => 0

/-- Drops leading whitespace. -/
def dropWhileWs (l : List Char) : List Char := l.dropWhile isWs

/-- Paragraph continuation: the lines up to the next blank or fence line. -/
def paraLines : List (List Char) → List (List Char)
  | [] => []
  | l :: ls => if isBlankLine l || isFenceLine l then [] else l :: paraLines ls

/-- Joins lines back together with newlines between them. -/
def joinLines : List (List Char) → List Char
  | [] => []
  | [l] => l
  | l :: ls => l ++ '\n' :: joinLines ls

/-- The index of the first fence line, if any. -/
def firstFence : List (List Char) → Option Nat
  | [] => none
  | l :: ls => if isFenceLine l then some 0 else (firstFence ls).map (· + 1)

/-- Modelled from the spec: the external markdown tokenizer (the marked
lexer), which is not part of this repository's sources — the spec treats it
as a CommonMark-ish service parsing text into typed block tokens.  This model
covers the constructs the spec's interface description and concrete scenarios
exercise: whitespace-only gaps become space tokens, a fenced code block's text
is the newline-joined lines strictly between the fences (an unterminated
fence runs to the end of the input, as in scenario 5), leading hashes make an
ATX heading, and any other run of lines up to a blank or fence line is a
paragraph.  The fuel argument bounds the number of emitted tokens; every step
consumes at least one line, so the line count is sufficient fuel. -/
def lexLines : Nat → List (List Char) → List Token
  | 0, _ => []
  | _, [] => []
  | fuel + 1, l :: ls =>
      if isBlankLine l then Token.space :: lexLines fuel ls
      else if isFenceLine l then
        match firstFence ls with
        | some k => Token.code (joinLines (ls.take k)) :: lexLines fuel (ls.drop (k + 1))
        | none => [Token.code (joinLines ls)]
      else if hashCount l ≠ 0 ∧ hashCount l ≤ 6 then
        Token.heading (hashCount l) (dropWhileWs (l.drop (hashCount l))) :: lexLines fuel ls
      else
        let p := paraLines (l :: ls)
        Token.paragraph (joinLines p) :: lexLines fuel ((l :: ls).drop p.length)

/-- Modelled from the spec: the whole-input entry point of the tokenizer
model — split into newline-delimited lines and tokenize. -/
def lexModel (content : List Char) : List Token :=
  lexLines (splitNl content).length (splitNl content)

/-- The trivial lexer producing no tokens; it satisfies the prefix-splitting
hypothesis of the amended streaming-equivalence claim. -/
def lexEmpty : List Char → List Token := fun _ => []

/-- The character list ends with two consecutive newlines (the shape of every
prefix that findCompleteContent consumes). -/
def endsNlNl (l : List Char) : Bool :=
  match l.reverse with
  | '\n' :: '\n' :: _ => true
  | _ => false

/-- The document-level layout invariant in its composable form: the blocks
chain from 0 and the stored total equals the running total. -/
def docInvE (d : Document) : Prop :=
  chainedFrom 0 d.blocks = true ∧ d.totalLines = endFrom 0 d.blocks

/-- The prefix-splitting property of a lexer: parsing splits across any
boundary that ends with a blank line.  This is the hypothesis of the amended
streaming-equivalence claim; the marked lexer violates it exactly when such a
boundary falls inside a multi-line construct, such as a fenced code block
containing a blank line. -/
def SplitSafe (lex : List Char → List Token) : Prop :=
  ∀ a b : List Char, endsNlNl a = true → b ≠ [] →
    parseBlocks lex (a ++ b) = parseBlocks lex a ++ parseBlocks lex b

/-- The total character width of a greedy line of styled words. -/
def wordsWidth (g : List (Style × List Char)) : Nat :=
  (g.map (fun w => w.2.length)).sum

/-- The simulation relation between the source wrap loop's state and the
greedy grouping state of claim C9: the closed lines are the merged groups, the
open line is the merged open group, and the tracked widths agree. -/
def WrapRel (ws : WrapState) (gs : GroupState) : Prop :=
  ws.lines = gs.groups.map (fun g => (⟨mergeWords g⟩ : RenderedLine)) ∧
  ws.currentLine = mergeWords gs.cur ∧
  ws.currentWidth = gs.curWidth

/-- What claim C9 asserts of every produced line of words: it fits the wrap
width, or it is a single unsplittable word longer than the width. -/
def GroupOK (width : Int) (g : List (Style × List Char)) : Prop :=
  ((wordsWidth g : Int) ≤ width) ∨
    (∃ (st : Style) (wd : List Char), g = [(st, wd)] ∧ (width < (wd.length : Int)) ∧
      wd ≠ [] ∧ isRun wd = true)

/-- The induction invariant of the streaming-equivalence proof: the state's
document is the indexed parse of a consumed prefix that is empty or ends with
a blank line. -/
def StreamInv (lex : List Char → List Token) (width : Int) (st : SState)
    (consumed : List Char) : Prop :=
  st.document = pushBlocks width ⟨[], [], 0⟩ (parseBlocks lex consumed) ∧
    (consumed = [] ∨ endsNlNl consumed = true)

mutual

/-- Claim C10's side condition: every list token (also nested inside
blockquotes) has at least one item. -/
def listsOK : Token → Bool
  | .blockquote ts => listsOKList ts
  | .list items => !(items.isEmpty)
  | _ => true

/-- The side condition over a token list. -/
def listsOKList : List Token → Bool
  | [] => true
  | t :: ts => listsOK t && listsOKList ts

end

-- ### Facts about the embedded string operations

theorem splitNl_ne_nil (l : List Char) : splitNl l ≠ [] := by
  induction l with
  | nil => simp [splitNl]
  | cons c cs ih =>
      unfold splitNl
      by_cases hc : c = '\n'
      · simp [hc]
      · simp only [if_neg hc]
        cases h : splitNl cs with
        | nil => simp
        | cons a as => simp

theorem splitNl_length (l : List Char) : (splitNl l).length = l.count '\n' + 1 := by
  induction l with
  | nil => simp [splitNl]
  | cons c cs ih =>
      unfold splitNl
      by_cases hc : c = '\n'
      · subst hc
        simp [List.count_cons, ih]
      · simp only [if_neg hc]
        cases h : splitNl cs with
        | nil => exact absurd h (splitNl_ne_nil cs)
        | cons a as =>
            rw [h] at ih
            simp only [List.length_cons] at ih ⊢
            simp [List.count_cons, hc, ih]

-- ### Claim C3: the footprint rules

mutual

theorem clc_eq_spec : (t : Token) → (w : Int) →
    computeBlockLineCount t w = specBlockLineCount t w
  | .heading _ _, _ => rfl
  | .paragraph _, _ => rfl
  | .code text, w => by
      simp only [computeBlockLineCount, specBlockLineCount, splitNl_length]
      rw [Nat.max_eq_right (by omega)]
  | .blockquote ts, w => by
      simp only [computeBlockLineCount, specBlockLineCount, sum_eq_spec ts (w - 2)]
  | .list _, _ => rfl
  | .hr, _ => rfl
  | .html raw, w => by
      simp only [computeBlockLineCount, specBlockLineCount]
      generalize (((splitNl raw).filter (fun l => !(l.all isWs))).length) = n
      rcases n with _ | m
      · rfl
      · rw [if_neg (by omega), Nat.max_eq_right (by omega)]
  | .table _, _ => rfl
  | .space, _ => rfl
  | .other _, _ => rfl

theorem sum_eq_spec : (ts : List Token) → (w : Int) →
    sumLineCounts ts w = specSumLineCounts ts w
  | [], _ => rfl
  | t :: ts, w => by
      simp only [sumLineCounts, specSumLineCounts, clc_eq_spec t w, sum_eq_spec ts w]

end

/-- C3: for every block token and every width, computeBlockLineCount returns
exactly the specified footprint — for heading and paragraph the guarded
ceiling of text length over width, for code the number of newline-delimited
lines (at least 1), for blockquote the floored recursive sum at width - 2,
one line per list item, 1 for a rule, the non-blank newline-delimited line
count of raw html (at least 1), one plus the data-row count for a table, and
1 for any other type. -/
theorem claim_C3 : ∀ (t : Token) (width : Int),
    computeBlockLineCount t width = specBlockLineCount t width :=
  clc_eq_spec

-- ### Facts about the layout chain

theorem chained_cons {s : Nat} {b : Block} {bs : List Block} :
    chainedFrom s (b :: bs) = true ↔
      b.startLine = s ∧ chainedFrom (s + b.lineCount) bs = true := by
  simp [chainedFrom]

theorem chained_le_start (bs : List Block) : ∀ (s k : Nat),
    chainedFrom s bs = true → k < bs.length → s ≤ (getB bs k).startLine := by
  induction bs with
  | nil => intro s k _ hk; simp at hk
  | cons b bs ih =>
      intro s k h hk
      obtain ⟨h1, h2⟩ := chained_cons.mp h
      cases k with
      | zero => simp only [getB, List.getD_cons_zero]; omega
      | succ k =>
          have := ih (s + b.lineCount) k h2 (by simpa using hk)
          simp only [getB, List.getD_cons_succ] at *
          omega

theorem chained_adj (bs : List Block) : ∀ (s k : Nat),
    chainedFrom s bs = true → k + 1 < bs.length →
    (getB bs (k + 1)).startLine = (getB bs k).startLine + (getB bs k).lineCount := by
  induction bs with
  | nil => intro s k _ hk; simp at hk
  | cons b bs ih =>
      intro s k h hk
      obtain ⟨h1, h2⟩ := chained_cons.mp h
      cases k with
      | zero =>
          cases bs with
          | nil => simp at hk
          | cons b' bs' =>
              obtain ⟨h1', _⟩ := chained_cons.mp h2
              simp only [getB, List.getD_cons_succ, List.getD_cons_zero]
              omega
      | succ k =>
          have := ih (s + b.lineCount) k h2 (by simpa using hk)
          simpa [getB, List.getD_cons_succ] using this

theorem chained_mono (bs : List Block) : ∀ (s j k : Nat),
    chainedFrom s bs = true → j ≤ k → k < bs.length →
    (getB bs j).startLine ≤ (getB bs k).startLine := by
  induction bs with
  | nil => intro s j k _ _ hk; simp at hk
  | cons b bs ih =>
      intro s j k h hjk hk
      obtain ⟨h1, h2⟩ := chained_cons.mp h
      cases j with
      | zero =>
          cases k with
          | zero => exact le_refl _
          | succ k =>
              have := chained_le_start bs (s + b.lineCount) k h2 (by simpa using hk)
              simp only [getB, List.getD_cons_zero, List.getD_cons_succ] at *
              omega
      | succ j =>
          cases k with
          | zero => omega
          | succ k =>
              have := ih (s + b.lineCount) j k h2 (by omega) (by simpa using hk)
              simpa [getB, List.getD_cons_succ] using this

theorem endFrom_ge (bs : List Block) : ∀ s : Nat, s ≤ endFrom s bs := by
  induction bs with
  | nil => intro s; exact le_refl _
  | cons b bs ih =>
      intro s
      have := ih (s + b.lineCount)
      simp only [endFrom]
      omega

theorem chained_end_ub (bs : List Block) : ∀ (s k : Nat),
    chainedFrom s bs = true → k < bs.length →
    (getB bs k).startLine + (getB bs k).lineCount ≤ endFrom s bs := by
  induction bs with
  | nil => intro s k _ hk; simp at hk
  | cons b bs ih =>
      intro s k h hk
      obtain ⟨h1, h2⟩ := chained_cons.mp h
      cases k with
      | zero =>
          have := endFrom_ge bs (s + b.lineCount)
          simp only [getB, List.getD_cons_zero, endFrom]
          omega
      | succ k =>
          have := ih (s + b.lineCount) k h2 (by simpa using hk)
          simp only [getB, List.getD_cons_succ, endFrom] at *
          omega

theorem chained_endFrom_last (bs : List Block) : ∀ s : Nat,
    chainedFrom s bs = true → bs ≠ [] →
    endFrom s bs =
      (getB bs (bs.length - 1)).startLine + (getB bs (bs.length - 1)).lineCount := by
  induction bs with
  | nil => intro s _ hne; exact absurd rfl hne
  | cons b bs ih =>
      intro s h _
      obtain ⟨h1, h2⟩ := chained_cons.mp h
      cases bs with
      | nil =>
          simp only [endFrom, getB, List.getD_cons_zero, List.length_cons,
            List.length_nil, Nat.zero_add, Nat.sub_self]
          omega
      | cons b' bs' =>
          have := ih (s + b.lineCount) h2 (by simp)
          simp only [endFrom, List.length_cons] at this ⊢
          simp only [Nat.add_sub_cancel] at this ⊢
          simpa [getB, List.getD_cons_succ] using this

theorem docTotal_eq_last (bs : List Block) : bs ≠ [] →
    docTotal bs =
      (getB bs (bs.length - 1)).startLine + (getB bs (bs.length - 1)).lineCount := by
  induction bs with
  | nil => intro hne; exact absurd rfl hne
  | cons b bs ih =>
      intro _
      cases bs with
      | nil => simp [docTotal, getB]
      | cons b' bs' =>
          have := ih (by simp)
          simp only [docTotal, List.length_cons] at this ⊢
          simp only [Nat.add_sub_cancel] at this ⊢
          simpa [getB, List.getD_cons_succ] using this

theorem chained_docTotal (bs : List Block) (s : Nat)
    (h : chainedFrom s bs = true) (hne : bs ≠ []) : docTotal bs = endFrom s bs := by
  rw [docTotal_eq_last bs hne, chained_endFrom_last bs s h hne]

theorem chained_docTotal_zero (bs : List Block) (h : chainedFrom 0 bs = true) :
    docTotal bs = endFrom 0 bs := by
  cases bs with
  | nil => rfl
  | cons b bs' => exact chained_docTotal _ 0 h (by simp)

theorem chained_indexFrom (bs : List Block) : ∀ (s : Nat) (width : Int),
    chainedFrom s (indexFrom width s bs) = true := by
  induction bs with
  | nil => intro s width; rfl
  | cons b bs ih =>
      intro s width
      simp only [indexFrom]
      exact chained_cons.mpr ⟨rfl, ih _ _⟩

-- ### The streaming indexer preserves the layout invariant

theorem endFrom_append (xs ys : List Block) : ∀ s : Nat,
    endFrom s (xs ++ ys) = endFrom (endFrom s xs) ys := by
  induction xs with
  | nil => intro s; rfl
  | cons x xs ih => intro s; simp only [List.cons_append, endFrom]; exact ih _

theorem chained_append_one (bs : List Block) : ∀ (s : Nat) (t : Token) (c : Nat),
    chainedFrom s bs = true →
    chainedFrom s (bs ++ [⟨t, endFrom s bs, c⟩]) = true := by
  induction bs with
  | nil =>
      intro s t c _
      exact chained_cons.mpr ⟨rfl, rfl⟩
  | cons b bs ih =>
      intro s t c h
      obtain ⟨h1, h2⟩ := chained_cons.mp h
      simp only [List.cons_append]
      exact chained_cons.mpr ⟨h1, by simpa [endFrom] using ih (s + b.lineCount) t c h2⟩

theorem pushBlock_inv (width : Int) (d : Document) (b : Block) (h : docInvE d) :
    docInvE (pushBlock width d b) := by
  obtain ⟨h1, h2⟩ := h
  constructor
  · show chainedFrom 0 (d.blocks ++ [⟨b.token, d.totalLines, _⟩]) = true
    rw [h2]
    exact chained_append_one _ 0 _ _ h1
  · show d.totalLines + _ = endFrom 0 (d.blocks ++ [⟨b.token, d.totalLines, _⟩])
    rw [endFrom_append]
    simp only [endFrom]
    omega

theorem pushBlocks_inv (width : Int) (bs : List Block) : ∀ d : Document,
    docInvE d → docInvE (pushBlocks width d bs) := by
  induction bs with
  | nil => intro d h; exact h
  | cons b bs ih => intro d h; exact ih _ (pushBlock_inv width d b h)

theorem processBuffer_inv (lex : List Char → List Token) (width : Int) (force : Bool)
    (st : SState) (h : docInvE st.document) :
    docInvE (processBuffer lex width force st).document := by
  unfold processBuffer
  repeat' (first | split | dsimp only)
  all_goals first
    | exact h
    | exact pushBlocks_inv width _ st.document h

theorem appendS_inv (lex : List Char → List Token) (width : Int) (st : SState)
    (frag : List Char) (h : docInvE st.document) :
    docInvE (appendS lex width st frag).document :=
  processBuffer_inv lex width false _ h

theorem finalizeS_inv (lex : List Char → List Token) (width : Int) (st : SState)
    (h : docInvE st.document) : docInvE (finalizeS lex width st).document :=
  processBuffer_inv lex width true st h

theorem runOps_inv (lex : List Char → List Token) (width : Int) :
    ∀ (ops : List StreamOp) (st : SState),
    docInvE st.document → docInvE (runOps lex width st ops).document := by
  intro ops
  induction ops with
  | nil => intro st h; exact h
  | cons op ops ih =>
      intro st h
      cases op with
      | app f => exact ih _ (appendS_inv lex width st f h)
      | fin => exact ih _ (finalizeS_inv lex width st h)

theorem initial_inv : docInvE initialSState.document := ⟨rfl, rfl⟩

/-- C1: monotonic line numbering.  Every run of computeLinePositions produces
blocks that start at 0 and chain (each block starts where the previous one
ended); every document built by createDocument satisfies the chain and stores
the last block's end (or 0 when empty) as totalLines; and every document
grown by any sequence of streaming append and finalize calls satisfies the
same two properties. -/
theorem claim_C1 :
    (∀ (bs : List Block) (width : Int),
        chainedFrom 0 (computeLinePositions bs width) = true) ∧
    (∀ (lex : List Char → List Token) (content : List Char) (width : Int),
        chainedFrom 0 (createDocument lex content width).blocks = true ∧
        (createDocument lex content width).totalLines =
          docTotal (createDocument lex content width).blocks) ∧
    (∀ (lex : List Char → List Token) (width : Int) (ops : List StreamOp),
        chainedFrom 0 ((runOps lex width initialSState ops).document).blocks = true ∧
        ((runOps lex width initialSState ops).document).totalLines =
          docTotal ((runOps lex width initialSState ops).document).blocks) := by
  refine ⟨?_, ?_, ?_⟩
  · intro bs width
    exact chained_indexFrom bs 0 width
  · intro lex content width
    exact ⟨chained_indexFrom _ 0 width, rfl⟩
  · intro lex width ops
    obtain ⟨h1, h2⟩ := runOps_inv lex width ops initialSState initial_inv
    exact ⟨h1, by rw [h2, chained_docTotal_zero _ h1]⟩

-- ### Correctness of the binary-search loop

theorem findLoop_bounds (blocks : List Block) (line : Int) : ∀ (fuel lo hi : Nat),
    lo ≤ hi → hi - lo ≤ fuel →
    lo ≤ findLoop blocks line fuel lo hi ∧ findLoop blocks line fuel lo hi ≤ hi := by
  intro fuel
  induction fuel with
  | zero =>
      intro lo hi hle hf
      have h : lo = hi := by omega
      subst h
      exact ⟨le_refl _, le_refl _⟩
  | succ fuel ih =>
      intro lo hi hle hf
      simp only [findLoop]
      split
      case isTrue hlt =>
        split
        case isTrue hP =>
          have := ih ((lo + hi + 1) / 2) hi (by omega) (by omega)
          omega
        case isFalse hP =>
          have := ih lo ((lo + hi + 1) / 2 - 1) (by omega) (by omega)
          omega
      case isFalse hlt => omega

theorem findLoop_all_false (blocks : List Block) (line : Int) : ∀ (fuel lo hi : Nat),
    lo ≤ hi → hi - lo ≤ fuel →
    (∀ k, lo ≤ k → k ≤ hi → ¬ (((getB blocks k).startLine : Int) ≤ line)) →
    findLoop blocks line fuel lo hi = lo := by
  intro fuel
  induction fuel with
  | zero => intro lo hi _ _ _; rfl
  | succ fuel ih =>
      intro lo hi hle hf hall
      simp only [findLoop]
      split
      case isTrue hlt =>
        rw [if_neg (hall _ (by omega) (by omega))]
        exact ih lo _ (by omega) (by omega) (fun k hk1 hk2 => hall k hk1 (by omega))
      case isFalse => rfl

theorem findLoop_rightmost (blocks : List Block) (line : Int) : ∀ (fuel lo hi : Nat),
    lo ≤ hi → hi - lo ≤ fuel →
    ((getB blocks lo).startLine : Int) ≤ line →
    (∀ j k, j ≤ k → k ≤ hi → ((getB blocks k).startLine : Int) ≤ line →
        ((getB blocks j).startLine : Int) ≤ line) →
    (((getB blocks (findLoop blocks line fuel lo hi)).startLine : Int) ≤ line ∧
      ∀ k, findLoop blocks line fuel lo hi < k → k ≤ hi →
        ¬ (((getB blocks k).startLine : Int) ≤ line)) := by
  intro fuel
  induction fuel with
  | zero =>
      intro lo hi hle hf hPlo _
      have h : lo = hi := by omega
      subst h
      simp only [findLoop]
      refine ⟨hPlo, ?_⟩
      intro k hk1 hk2
      omega
  | succ fuel ih =>
      intro lo hi hle hf hPlo hdc
      simp only [findLoop]
      split
      case isTrue hlt =>
        split
        case isTrue hP =>
          exact ih _ hi (by omega) (by omega) hP hdc
        case isFalse hP =>
          have hmain := ih lo ((lo + hi + 1) / 2 - 1) (by omega) (by omega) hPlo
            (fun j k hjk hk hPk => hdc j k hjk (by omega) hPk)
          refine ⟨hmain.1, ?_⟩
          intro k hk1 hk2
          by_cases hcase : k ≤ (lo + hi + 1) / 2 - 1
          · exact hmain.2 k hk1 hcase
          · intro hPk
            exact hP (hdc _ k (by omega) hk2 hPk)
      case isFalse hlt =>
        refine ⟨hPlo, ?_⟩
        intro k hk1 hk2 _
        omega

theorem chained_first (bs : List Block) (s : Nat)
    (h : chainedFrom s bs = true) (hne : bs ≠ []) : (getB bs 0).startLine = s := by
  cases bs with
  | nil => exact absurd rfl hne
  | cons b bs' => exact (chained_cons.mp h).1

/-- The essential content of locator correctness: on a non-trivial chained
document the binary search finds the unique block containing the line. -/
theorem find_correct (blocks : List Block) (L : Int)
    (hch : chainedFrom 0 blocks = true)
    (hL0 : 0 ≤ L) (hLt : L < (endFrom 0 blocks : Int)) :
    ∃ i : Nat,
      findLoop blocks L blocks.length 0 (blocks.length - 1) = i ∧
      i < blocks.length ∧
      ((getB blocks i).startLine : Int) ≤ L ∧
      L < (((getB blocks i).startLine + (getB blocks i).lineCount : Nat) : Int) ∧
      ∀ j : Nat, j < blocks.length →
        ((getB blocks j).startLine : Int) ≤ L →
        L < (((getB blocks j).startLine + (getB blocks j).lineCount : Nat) : Int) →
        j = i := by
  have hne : blocks ≠ [] := by
    intro he
    subst he
    simp only [endFrom] at hLt
    omega
  have hn : 0 < blocks.length := List.length_pos.mpr hne
  have hdc : ∀ j k, j ≤ k → k ≤ blocks.length - 1 →
      ((getB blocks k).startLine : Int) ≤ L → ((getB blocks j).startLine : Int) ≤ L := by
    intro j k hjk hk hPk
    have := chained_mono blocks 0 j k hch hjk (by omega)
    omega
  have hP0 : ((getB blocks 0).startLine : Int) ≤ L := by
    rw [chained_first blocks 0 hch hne]
    exact_mod_cast hL0
  obtain ⟨hPr, habove⟩ :=
    findLoop_rightmost blocks L blocks.length 0 (blocks.length - 1)
      (by omega) (by omega) hP0 hdc
  obtain ⟨hrlo, hrhi⟩ :=
    findLoop_bounds blocks L blocks.length 0 (blocks.length - 1) (by omega) (by omega)
  refine ⟨findLoop blocks L blocks.length 0 (blocks.length - 1), rfl, by omega, hPr, ?_, ?_⟩
  · by_cases hlast : findLoop blocks L blocks.length 0 (blocks.length - 1) = blocks.length - 1
    · rw [hlast]
      rw [chained_endFrom_last blocks 0 hch hne] at hLt
      exact hLt
    · have hnext := habove (findLoop blocks L blocks.length 0 (blocks.length - 1) + 1)
        (by omega) (by omega)
      have hadj := chained_adj blocks 0 (findLoop blocks L blocks.length 0 (blocks.length - 1))
        hch (by omega)
      rw [hadj] at hnext
      omega
  · intro j hj hPj hCj
    by_cases hjr : j = findLoop blocks L blocks.length 0 (blocks.length - 1)
    · exact hjr
    · exfalso
      have hjle : j ≤ findLoop blocks L blocks.length 0 (blocks.length - 1) := by
        by_contra hgt
        exact habove j (by omega) (by omega) hPj
      have hjlt : j < findLoop blocks L blocks.length 0 (blocks.length - 1) := by omega
      have hadj := chained_adj blocks 0 j hch (by omega)
      have hmono := chained_mono blocks 0 (j + 1)
        (findLoop blocks L blocks.length 0 (blocks.length - 1)) hch (by omega) (by omega)
      omega

/-- C2: locator correctness.  On a document satisfying the layout invariant
with every block at least one line tall, findBlockAtLine returns, for every
line L in [0, totalLines), the unique block index whose line range contains
L (the rightmost block whose startLine is at most L, by binary search). -/
theorem claim_C2 : ∀ (d : Document) (L : Int),
    chainedFrom 0 d.blocks = true →
    allCountsPos d.blocks = true →
    d.totalLines = docTotal d.blocks →
    0 ≤ L → L < (d.totalLines : Int) →
    ∃ i : Nat,
      findBlockAtLine d L = (i : Int) ∧
      i < d.blocks.length ∧
      ((getB d.blocks i).startLine : Int) ≤ L ∧
      L < (((getB d.blocks i).startLine + (getB d.blocks i).lineCount : Nat) : Int) ∧
      ∀ j : Nat, j < d.blocks.length →
        ((getB d.blocks j).startLine : Int) ≤ L →
        L < (((getB d.blocks j).startLine + (getB d.blocks j).lineCount : Nat) : Int) →
        j = i := by
  intro d L hch _hpos htot hL0 hLt
  rw [htot, chained_docTotal_zero _ hch] at hLt
  have hne : d.blocks ≠ [] := by
    intro he
    rw [he] at hLt
    simp only [endFrom] at hLt
    omega
  have hemp : d.blocks.isEmpty = false := by
    cases hdd : d.blocks with
    | nil => exact absurd hdd hne
    | cons a l => rfl
  obtain ⟨i, hi, hilt, h1, h2, huniq⟩ := find_correct d.blocks L hch hL0 hLt
  refine ⟨i, ?_, hilt, h1, h2, huniq⟩
  simp only [findBlockAtLine, hemp, Bool.false_eq_true, if_false, hi]

/-- C7: locator clamping.  findBlockAtLine returns -1 on an empty document;
on a non-empty document satisfying the layout invariant it returns the last
index for every line at or past totalLines (hence for totalLines + K for all
K at least 0) and index 0 for every negative line; the embedding is a total
function, so no input can make it throw. -/
theorem claim_C7 : ∀ (d : Document) (line : Int),
    (d.blocks = [] → findBlockAtLine d line = -1) ∧
    (chainedFrom 0 d.blocks = true → d.totalLines = docTotal d.blocks →
      d.blocks ≠ [] →
      ((d.totalLines : Int) ≤ line →
        findBlockAtLine d line = ((d.blocks.length - 1 : Nat) : Int)) ∧
      (line < 0 → findBlockAtLine d line = 0)) := by
  intro d line
  constructor
  · intro he
    have hemp : d.blocks.isEmpty = true := by rw [he]; rfl
    simp only [findBlockAtLine, hemp, if_true]
  · intro hch htot hne
    have hemp : d.blocks.isEmpty = false := by
      cases hdd : d.blocks with
      | nil => exact absurd hdd hne
      | cons a l => rfl
    have hn : 0 < d.blocks.length := List.length_pos.mpr hne
    constructor
    · intro hline
      rw [htot, chained_docTotal_zero _ hch] at hline
      have hall : ∀ k, k ≤ d.blocks.length - 1 →
          ((getB d.blocks k).startLine : Int) ≤ line := by
        intro k hk
        have hmono := chained_mono d.blocks 0 k (d.blocks.length - 1) hch hk (by omega)
        have hub := chained_end_ub d.blocks 0 (d.blocks.length - 1) hch (by omega)
        omega
      obtain ⟨hPr, habove⟩ :=
        findLoop_rightmost d.blocks line d.blocks.length 0 (d.blocks.length - 1)
          (by omega) (by omega) (hall 0 (by omega))
          (fun j k hjk hk _ => hall j (by omega))
      obtain ⟨hrlo, hrhi⟩ :=
        findLoop_bounds d.blocks line d.blocks.length 0 (d.blocks.length - 1)
          (by omega) (by omega)
      have hr : findLoop d.blocks line d.blocks.length 0 (d.blocks.length - 1) =
          d.blocks.length - 1 := by
        by_contra hner
        exact habove (d.blocks.length - 1) (by omega) (by omega)
          (hall (d.blocks.length - 1) (by omega))
      simp only [findBlockAtLine, hemp, Bool.false_eq_true, if_false, hr]
    · intro hneg
      have hzero : findLoop d.blocks line d.blocks.length 0 (d.blocks.length - 1) = 0 := by
        apply findLoop_all_false d.blocks line d.blocks.length 0 (d.blocks.length - 1)
          (by omega) (by omega)
        intro k _ _
        have : (0 : Int) ≤ ((getB d.blocks k).startLine : Int) := by positivity
        omega
      simp only [findBlockAtLine, hemp, Bool.false_eq_true, if_false, hzero]
      rfl

/-- Witness for C2 on a concrete two-block document at line 2. -/
theorem claim_C2_witness :
    chainedFrom 0 (⟨[⟨.hr, 0, 1⟩, ⟨.hr, 1, 2⟩], [], 3⟩ : Document).blocks = true ∧
    allCountsPos (⟨[⟨.hr, 0, 1⟩, ⟨.hr, 1, 2⟩], [], 3⟩ : Document).blocks = true ∧
    (⟨[⟨.hr, 0, 1⟩, ⟨.hr, 1, 2⟩], [], 3⟩ : Document).totalLines =
      docTotal (⟨[⟨.hr, 0, 1⟩, ⟨.hr, 1, 2⟩], [], 3⟩ : Document).blocks ∧
    (0 : Int) ≤ 2 ∧ (2 : Int) < ((⟨[⟨.hr, 0, 1⟩, ⟨.hr, 1, 2⟩], [], 3⟩ : Document).totalLines : Int) ∧
    ∃ i : Nat,
      findBlockAtLine (⟨[⟨.hr, 0, 1⟩, ⟨.hr, 1, 2⟩], [], 3⟩ : Document) 2 = (i : Int) ∧
      i < (⟨[⟨.hr, 0, 1⟩, ⟨.hr, 1, 2⟩], [], 3⟩ : Document).blocks.length ∧
      ((getB (⟨[⟨.hr, 0, 1⟩, ⟨.hr, 1, 2⟩], [], 3⟩ : Document).blocks i).startLine : Int) ≤ 2 ∧
      (2 : Int) < (((getB (⟨[⟨.hr, 0, 1⟩, ⟨.hr, 1, 2⟩], [], 3⟩ : Document).blocks i).startLine +
        (getB (⟨[⟨.hr, 0, 1⟩, ⟨.hr, 1, 2⟩], [], 3⟩ : Document).blocks i).lineCount : Nat) : Int) ∧
      ∀ j : Nat, j < (⟨[⟨.hr, 0, 1⟩, ⟨.hr, 1, 2⟩], [], 3⟩ : Document).blocks.length →
        ((getB (⟨[⟨.hr, 0, 1⟩, ⟨.hr, 1, 2⟩], [], 3⟩ : Document).blocks j).startLine : Int) ≤ 2 →
        (2 : Int) < (((getB (⟨[⟨.hr, 0, 1⟩, ⟨.hr, 1, 2⟩], [], 3⟩ : Document).blocks j).startLine +
          (getB (⟨[⟨.hr, 0, 1⟩, ⟨.hr, 1, 2⟩], [], 3⟩ : Document).blocks j).lineCount : Nat) : Int) →
        j = i :=
  ⟨by decide, by decide, by decide, by decide, by decide,
    claim_C2 ⟨[⟨.hr, 0, 1⟩, ⟨.hr, 1, 2⟩], [], 3⟩ 2
      (by decide) (by decide) (by decide) (by decide) (by decide)⟩

/-- Witness for C7 on a concrete two-block document: clamping past the end and
below zero, and the empty-document result. -/
theorem claim_C7_witness :
    (findBlockAtLine (⟨[], [], 0⟩ : Document) 5 = -1) ∧
    chainedFrom 0 (⟨[⟨.hr, 0, 2⟩, ⟨.hr, 2, 1⟩], [], 3⟩ : Document).blocks = true ∧
    (⟨[⟨.hr, 0, 2⟩, ⟨.hr, 2, 1⟩], [], 3⟩ : Document).totalLines =
      docTotal (⟨[⟨.hr, 0, 2⟩, ⟨.hr, 2, 1⟩], [], 3⟩ : Document).blocks ∧
    (⟨[⟨.hr, 0, 2⟩, ⟨.hr, 2, 1⟩], [], 3⟩ : Document).blocks ≠ [] ∧
    findBlockAtLine (⟨[⟨.hr, 0, 2⟩, ⟨.hr, 2, 1⟩], [], 3⟩ : Document) 100 =
      (((⟨[⟨.hr, 0, 2⟩, ⟨.hr, 2, 1⟩], [], 3⟩ : Document).blocks.length - 1 : Nat) : Int) ∧
    findBlockAtLine (⟨[⟨.hr, 0, 2⟩, ⟨.hr, 2, 1⟩], [], 3⟩ : Document) (-7) = 0 :=
  ⟨(claim_C7 ⟨[], [], 0⟩ 5).1 rfl,
    by decide, by decide, List.cons_ne_nil _ _,
    ((claim_C7 ⟨[⟨.hr, 0, 2⟩, ⟨.hr, 2, 1⟩], [], 3⟩ 100).2 (by decide) (by decide)
      (List.cons_ne_nil _ _)).1 (by decide),
    ((claim_C7 ⟨[⟨.hr, 0, 2⟩, ⟨.hr, 2, 1⟩], [], 3⟩ (-7)).2 (by decide) (by decide)
      (List.cons_ne_nil _ _)).2 (by decide)⟩

-- ### The viewport selector

theorem getB_eq_getElem (blocks : List Block) (j : Nat) (h : j < blocks.length) :
    getB blocks j = blocks[j] := by
  simp [getB, List.getD_eq_getElem?_getD, List.getElem?_eq_getElem h]

theorem gvb_eq (d : Document) (S H : Int) (hne : d.blocks ≠ []) :
    getVisibleBlocks d S H =
      (d.blocks.drop (findLoop d.blocks S d.blocks.length 0 (d.blocks.length - 1))).takeWhile
        (fun b => decide ((b.startLine : Int) < S + H)) := by
  have hemp : d.blocks.isEmpty = false := by
    cases hdd : d.blocks with
    | nil => exact absurd hdd hne
    | cons a l => rfl
  unfold getVisibleBlocks findBlockAtLine
  rw [hemp]
  simp only [Bool.false_eq_true, if_false]
  rw [if_neg (by omega :
      ¬(((findLoop d.blocks S d.blocks.length 0 (d.blocks.length - 1) : Nat) : Int) = -1))]
  simp [Int.toNat_natCast]

theorem mem_gvb_index (d : Document) (S H : Int) (hne : d.blocks ≠ []) (b : Block)
    (hb : b ∈ getVisibleBlocks d S H) :
    ((b.startLine : Int) < S + H) ∧
    ∃ j : Nat, findLoop d.blocks S d.blocks.length 0 (d.blocks.length - 1) ≤ j ∧
      j < d.blocks.length ∧ getB d.blocks j = b := by
  rw [gvb_eq d S H hne] at hb
  have hp := List.mem_takeWhile_imp hb
  have hmem := (List.takeWhile_sublist _).subset hb
  refine ⟨by simpa using hp, ?_⟩
  obtain ⟨m, hm, hbm⟩ := List.mem_iff_getElem.mp hmem
  have hmlen := hm
  rw [List.length_drop] at hmlen
  refine ⟨findLoop d.blocks S d.blocks.length 0 (d.blocks.length - 1) + m, by omega,
    by omega, ?_⟩
  simp only [List.getElem_drop] at hbm
  rw [getB_eq_getElem _ _ (by omega)]
  exact hbm

/-- C5, amended: on documents satisfying the layout invariant, getVisibleBlocks
never returns a block starting at or past S + H; it returns the empty sequence
for an empty document; and when S is in range it additionally returns no block
lying entirely before S and — provided the viewport height is at least 1 —
includes the block containing line S.  (As stated the claim fails: for S at or
past totalLines the clamped locator makes the walk return the last block, which
lies entirely before S, and for H = 0 the containing block is not returned.) -/
theorem claim_C5_amended : ∀ (d : Document) (S H : Int),
    chainedFrom 0 d.blocks = true →
    allCountsPos d.blocks = true →
    d.totalLines = docTotal d.blocks →
    ((∀ b ∈ getVisibleBlocks d S H, (b.startLine : Int) < S + H) ∧
     (d.blocks = [] → getVisibleBlocks d S H = []) ∧
     (0 ≤ S → S < (d.totalLines : Int) →
       (∀ b ∈ getVisibleBlocks d S H, S < ((b.startLine + b.lineCount : Nat) : Int)) ∧
       (1 ≤ H → ∃ b ∈ getVisibleBlocks d S H,
         (b.startLine : Int) ≤ S ∧ S < ((b.startLine + b.lineCount : Nat) : Int)))) := by
  intro d S H hch hpos htot
  by_cases hne : d.blocks = []
  · have hemp : d.blocks.isEmpty = true := by rw [hne]; rfl
    have hg : getVisibleBlocks d S H = [] := by
      unfold getVisibleBlocks
      rw [hemp]
      rfl
    refine ⟨?_, fun _ => hg, ?_⟩
    · intro b hb
      rw [hg] at hb
      exact absurd hb (List.not_mem_nil b)
    · intro hS0 hSlt
      exfalso
      rw [htot, hne] at hSlt
      simp only [docTotal] at hSlt
      omega
  · have hn : 0 < d.blocks.length := List.length_pos.mpr hne
    refine ⟨?_, fun he => absurd he hne, ?_⟩
    · intro b hb
      exact (mem_gvb_index d S H hne b hb).1
    · intro hS0 hSlt
      rw [htot, chained_docTotal_zero _ hch] at hSlt
      obtain ⟨i, hi, hilt, hc1, hc2, _⟩ := find_correct d.blocks S hch hS0 hSlt
      constructor
      · intro b hb
        obtain ⟨_, j, hji, hjlt, hjb⟩ := mem_gvb_index d S H hne b hb
        rw [hi] at hji
        by_cases hji' : j = i
        · subst hji'
          rw [hjb] at hc2
          exact hc2
        · have hadj := chained_adj d.blocks 0 i hch (by omega)
          have hmono := chained_mono d.blocks 0 (i + 1) j hch (by omega) hjlt
          rw [← hjb]
          push_cast
          push_cast at hc2
          omega
      · intro hH
        refine ⟨getB d.blocks i, ?_, hc1, hc2⟩
        rw [gvb_eq d S H hne, hi]
        rw [List.drop_eq_getElem_cons hilt]
        rw [List.takeWhile_cons]
        rw [if_pos (by
          rw [← getB_eq_getElem _ _ hilt]
          simp only [decide_eq_true_eq]
          omega)]
        rw [getB_eq_getElem _ _ hilt]
        exact List.mem_cons_self _ _

/-- C5, counterexample to the claim as stated: on a one-block document
satisfying the invariant, a scroll position past the end of the document makes
getVisibleBlocks return the (clamped) last block, whose range lies entirely
before S. -/
theorem claim_C5_cex :
    chainedFrom 0 (⟨[⟨.hr, 0, 1⟩], [], 1⟩ : Document).blocks = true ∧
    allCountsPos (⟨[⟨.hr, 0, 1⟩], [], 1⟩ : Document).blocks = true ∧
    (⟨[⟨.hr, 0, 1⟩], [], 1⟩ : Document).totalLines =
      docTotal (⟨[⟨.hr, 0, 1⟩], [], 1⟩ : Document).blocks ∧
    ∃ b ∈ getVisibleBlocks (⟨[⟨.hr, 0, 1⟩], [], 1⟩ : Document) 5 10,
      ((b.startLine + b.lineCount : Nat) : Int) ≤ 5 := by
  refine ⟨by decide, by decide, by decide, ?_⟩
  have hg : getVisibleBlocks (⟨[⟨.hr, 0, 1⟩], [], 1⟩ : Document) 5 10 = [⟨.hr, 0, 1⟩] := rfl
  exact ⟨⟨.hr, 0, 1⟩, by rw [hg]; exact List.mem_singleton_self _, by decide⟩

/-- Witness for the amended C5 on a concrete two-block document with S = 1,
H = 3. -/
theorem claim_C5_amended_witness :
    chainedFrom 0 (⟨[⟨.hr, 0, 1⟩, ⟨.hr, 1, 1⟩], [], 2⟩ : Document).blocks = true ∧
    allCountsPos (⟨[⟨.hr, 0, 1⟩, ⟨.hr, 1, 1⟩], [], 2⟩ : Document).blocks = true ∧
    (⟨[⟨.hr, 0, 1⟩, ⟨.hr, 1, 1⟩], [], 2⟩ : Document).totalLines =
      docTotal (⟨[⟨.hr, 0, 1⟩, ⟨.hr, 1, 1⟩], [], 2⟩ : Document).blocks ∧
    ((∀ b ∈ getVisibleBlocks (⟨[⟨.hr, 0, 1⟩, ⟨.hr, 1, 1⟩], [], 2⟩ : Document) 1 3,
        (b.startLine : Int) < 1 + 3) ∧
     ((⟨[⟨.hr, 0, 1⟩, ⟨.hr, 1, 1⟩], [], 2⟩ : Document).blocks = [] →
        getVisibleBlocks (⟨[⟨.hr, 0, 1⟩, ⟨.hr, 1, 1⟩], [], 2⟩ : Document) 1 3 = []) ∧
     ((0 : Int) ≤ 1 → (1 : Int) < ((⟨[⟨.hr, 0, 1⟩, ⟨.hr, 1, 1⟩], [], 2⟩ : Document).totalLines : Int) →
       (∀ b ∈ getVisibleBlocks (⟨[⟨.hr, 0, 1⟩, ⟨.hr, 1, 1⟩], [], 2⟩ : Document) 1 3,
          (1 : Int) < ((b.startLine + b.lineCount : Nat) : Int)) ∧
       ((1 : Int) ≤ 3 → ∃ b ∈ getVisibleBlocks (⟨[⟨.hr, 0, 1⟩, ⟨.hr, 1, 1⟩], [], 2⟩ : Document) 1 3,
          (b.startLine : Int) ≤ 1 ∧ (1 : Int) < ((b.startLine + b.lineCount : Nat) : Int)))) :=
  ⟨by decide, by decide, by decide,
    claim_C5_amended ⟨[⟨.hr, 0, 1⟩, ⟨.hr, 1, 1⟩], [], 2⟩ 1 3 (by decide) (by decide) (by decide)⟩

-- ### Claim C6: the fixed-height render

theorem collectLines_le (rb : Block → List RenderedLine) (scroll : Int) (height : Nat) :
    ∀ (bs : List Block) (done : Nat),
    (collectLines rb scroll height bs done).length ≤ height - done := by
  intro bs
  induction bs with
  | nil => intro done; simp [collectLines]
  | cons b bs ih =>
      intro done
      simp only [collectLines]
      split
      · simp
      · rw [List.length_append]
        have h1 := List.length_take_le (height - done)
          ((rb b).drop ((scroll - (b.startLine : Int)).toNat))
        have h2 := ih (done + (((rb b).drop ((scroll - (b.startLine : Int)).toNat)).take
          (height - done)).length)
        omega

/-- C6: the fixed-height render.  For every document, every scroll position,
every viewport height, and every per-block renderer (in particular one whose
line counts disagree with the indexed footprints), renderStructured returns
exactly height lines, and so does the ANSI render built on it: short content
is padded with blank lines, long content is truncated. -/
theorem claim_C6 : ∀ (d : Document) (rb : Block → List RenderedLine) (scroll : Int)
    (height : Nat),
    (renderStructured d rb scroll height).length = height ∧
    (render d rb scroll height).length = height := by
  intro d rb scroll height
  have h := collectLines_le rb scroll height (getVisibleBlocks d scroll (height : Int)) 0
  constructor
  · simp only [renderStructured, List.length_append, List.length_replicate]
    omega
  · simp only [render, List.length_map, renderStructured, List.length_append,
      List.length_replicate]
    omega

-- ### Claim C10: positive footprints and disjoint coverage

theorem one_le_clc (t : Token) (w : Int) (h : listsOK t = true) :
    1 ≤ computeBlockLineCount t w := by
  cases t with
  | heading d text =>
      show 1 ≤ computeWrappedLines text w
      unfold computeWrappedLines
      split
      · exact le_refl 1
      · exact Nat.le_max_left _ _
  | paragraph text =>
      show 1 ≤ computeWrappedLines text w
      unfold computeWrappedLines
      split
      · exact le_refl 1
      · exact Nat.le_max_left _ _
  | code text =>
      show 1 ≤ (splitNl text).length
      rw [splitNl_length]
      omega
  | blockquote ts => exact Nat.le_max_left _ _
  | list items =>
      show 1 ≤ items.length
      simp only [listsOK, Bool.not_eq_true'] at h
      cases items with
      | nil => simp [List.isEmpty] at h
      | cons a l => simp
  | hr => exact le_refl 1
  | html raw =>
      show 1 ≤ (let n := ((splitNl raw).filter (fun l => !(l.all isWs))).length;
        if n = 0 then 1 else n)
      dsimp only
      split
      · exact le_refl 1
      · omega
  | table rows => exact Nat.le_add_right 1 _
  | space => exact le_refl 1
  | other raw => exact le_refl 1

theorem mem_indexFrom (width : Int) : ∀ (bs : List Block) (s : Nat) (b : Block),
    b ∈ indexFrom width s bs →
    ∃ b0 ∈ bs, b.token = b0.token ∧ b.lineCount = computeBlockLineCount b0.token width := by
  intro bs
  induction bs with
  | nil => intro s b hb; simp [indexFrom] at hb
  | cons b0 bs ih =>
      intro s b hb
      simp only [indexFrom, List.mem_cons] at hb
      cases hb with
      | inl he => exact ⟨b0, List.mem_cons_self _ _, by rw [he], by rw [he]⟩
      | inr ht =>
          obtain ⟨b1, hb1, h1, h2⟩ := ih _ b ht
          exact ⟨b1, List.mem_cons_of_mem _ hb1, h1, h2⟩

theorem allCountsPos_indexFrom (bs : List Block) (width : Int)
    (h : ∀ b ∈ bs, listsOK b.token = true) :
    allCountsPos (indexFrom width 0 bs) = true := by
  unfold allCountsPos
  rw [List.all_eq_true]
  intro b hb
  obtain ⟨b0, hb0, _, hc⟩ := mem_indexFrom width bs 0 b hb
  have := one_le_clc b0.token width (h b0 hb0)
  rw [hc]
  simp only [Bool.not_eq_true', beq_eq_false_iff_ne, ne_eq]
  omega

theorem chained_strict_mono (blocks : List Block) (s : Nat)
    (hch : chainedFrom s blocks = true) (hpos : allCountsPos blocks = true) :
    ∀ j k : Nat, j < k → k < blocks.length →
    (getB blocks j).startLine < (getB blocks k).startLine := by
  intro j k hjk hk
  have hadj := chained_adj blocks s j hch (by omega)
  have hmono := chained_mono blocks s (j + 1) k hch (by omega) hk
  have hmem : getB blocks j ∈ blocks := by
    rw [getB_eq_getElem _ _ (by omega)]
    exact List.getElem_mem _
  have hc := List.all_eq_true.mp hpos _ hmem
  simp only [Bool.not_eq_true', beq_eq_false_iff_ne, ne_eq] at hc
  omega

/-- C10: every footprint computed for a token whose list tokens are non-empty
is at least one line, for every width including non-positive ones (both
computeLinePositions and the streaming indexer in processBuffer assign
lineCount through this computation); consequently, after computeLinePositions
runs on such a block list, every block occupies at least one line, the start
lines are strictly increasing, and every line below the computed total is
covered by exactly one block. -/
theorem claim_C10 : ∀ (bs : List Block) (width : Int),
    (∀ b ∈ bs, listsOK b.token = true) →
    ((∀ (t : Token) (w2 : Int), listsOK t = true → 1 ≤ computeBlockLineCount t w2) ∧
     (∀ b ∈ computeLinePositions bs width, 1 ≤ b.lineCount) ∧
     (∀ j k : Nat, j < k → k < (computeLinePositions bs width).length →
        (getB (computeLinePositions bs width) j).startLine <
          (getB (computeLinePositions bs width) k).startLine) ∧
     (∀ L : Nat, L < docTotal (computeLinePositions bs width) →
        ∃! i : Nat, i < (computeLinePositions bs width).length ∧
          (getB (computeLinePositions bs width) i).startLine ≤ L ∧
          L < (getB (computeLinePositions bs width) i).startLine +
            (getB (computeLinePositions bs width) i).lineCount)) := by
  intro bs width hOK
  have hch : chainedFrom 0 (computeLinePositions bs width) = true :=
    chained_indexFrom bs 0 width
  have hpos : allCountsPos (computeLinePositions bs width) = true :=
    allCountsPos_indexFrom bs width hOK
  refine ⟨fun t w2 ht => one_le_clc t w2 ht, ?_, chained_strict_mono _ 0 hch hpos, ?_⟩
  · intro b hb
    obtain ⟨b0, hb0, _, hc⟩ := mem_indexFrom width bs 0 b hb
    rw [hc]
    exact one_le_clc b0.token width (hOK b0 hb0)
  · intro L hL
    rw [chained_docTotal_zero _ hch] at hL
    obtain ⟨i, _, hilt, hc1, hc2, huniq⟩ := find_correct (computeLinePositions bs width)
      (L : Int) hch (by positivity) (by exact_mod_cast hL)
    refine ⟨i, ⟨hilt, by exact_mod_cast hc1, by exact_mod_cast hc2⟩, ?_⟩
    intro j ⟨hjlt, hj1, hj2⟩
    exact huniq j hjlt (by exact_mod_cast hj1) (by exact_mod_cast hj2)

/-- Witness for C10 on a concrete block list (a paragraph and a one-item
list) at a non-positive width. -/
theorem claim_C10_witness :
    (∀ b ∈ [(⟨.paragraph "hi".data, 0, 0⟩ : Block), ⟨.list ["a".data], 0, 0⟩],
      listsOK b.token = true) ∧
    ((∀ (t : Token) (w2 : Int), listsOK t = true → 1 ≤ computeBlockLineCount t w2) ∧
     (∀ b ∈ computeLinePositions
        [(⟨.paragraph "hi".data, 0, 0⟩ : Block), ⟨.list ["a".data], 0, 0⟩] (-3),
        1 ≤ b.lineCount) ∧
     (∀ j k : Nat, j < k →
        k < (computeLinePositions
          [(⟨.paragraph "hi".data, 0, 0⟩ : Block), ⟨.list ["a".data], 0, 0⟩] (-3)).length →
        (getB (computeLinePositions
          [(⟨.paragraph "hi".data, 0, 0⟩ : Block), ⟨.list ["a".data], 0, 0⟩] (-3)) j).startLine <
          (getB (computeLinePositions
            [(⟨.paragraph "hi".data, 0, 0⟩ : Block), ⟨.list ["a".data], 0, 0⟩] (-3)) k).startLine) ∧
     (∀ L : Nat, L < docTotal (computeLinePositions
          [(⟨.paragraph "hi".data, 0, 0⟩ : Block), ⟨.list ["a".data], 0, 0⟩] (-3)) →
        ∃! i : Nat, i < (computeLinePositions
            [(⟨.paragraph "hi".data, 0, 0⟩ : Block), ⟨.list ["a".data], 0, 0⟩] (-3)).length ∧
          (getB (computeLinePositions
            [(⟨.paragraph "hi".data, 0, 0⟩ : Block), ⟨.list ["a".data], 0, 0⟩] (-3)) i).startLine ≤ L ∧
          L < (getB (computeLinePositions
            [(⟨.paragraph "hi".data, 0, 0⟩ : Block), ⟨.list ["a".data], 0, 0⟩] (-3)) i).startLine +
            (getB (computeLinePositions
              [(⟨.paragraph "hi".data, 0, 0⟩ : Block), ⟨.list ["a".data], 0, 0⟩] (-3)) i).lineCount)) :=
  ⟨by decide,
    claim_C10 [(⟨.paragraph "hi".data, 0, 0⟩ : Block), ⟨.list ["a".data], 0, 0⟩] (-3) (by decide)⟩

-- ### Claim C4: streaming versus one-shot parsing

theorem pushBlocks_spec (width : Int) : ∀ (bs : List Block) (d : Document),
    pushBlocks width d bs =
      ⟨d.blocks ++ indexFrom width d.totalLines bs,
        d.headings ++ collectHeadings (indexFrom width d.totalLines bs) d.blocks.length,
        endFrom d.totalLines (indexFrom width d.totalLines bs)⟩ := by
  intro bs
  induction bs with
  | nil => intro d; simp [pushBlocks, indexFrom, collectHeadings, endFrom]
  | cons b bs ih =>
      intro d
      rw [pushBlocks, ih]
      simp [pushBlock, indexFrom, collectHeadings, endFrom, headingOf,
        List.append_assoc]

theorem createDocument_eq_pushBlocks (lex : List Char → List Token)
    (content : List Char) (width : Int) :
    createDocument lex content width =
      pushBlocks width ⟨[], [], 0⟩ (parseBlocks lex content) := by
  rw [pushBlocks_spec]
  unfold createDocument computeLinePositions
  simp only [List.nil_append, List.length_nil]
  rw [chained_docTotal_zero _ (chained_indexFrom _ 0 width)]

theorem pushBlocks_append (width : Int) : ∀ (xs ys : List Block) (d : Document),
    pushBlocks width d (xs ++ ys) = pushBlocks width (pushBlocks width d xs) ys := by
  intro xs
  induction xs with
  | nil => intro ys d; rfl
  | cons x xs ih => intro ys d; simp only [List.cons_append, pushBlocks]; exact ih ys _

theorem lastNlNl_le : ∀ (l : List Char) (i : Nat), lastNlNl l = some i → i + 2 ≤ l.length
  | [], i, h => by simp [lastNlNl] at h
  | [_], i, h => by simp [lastNlNl] at h
  | a :: b :: rest, i, h => by
      simp only [lastNlNl] at h
      cases hrec : lastNlNl (b :: rest) with
      | some j =>
          rw [hrec] at h
          injection h with h2
          have hle := lastNlNl_le (b :: rest) j hrec
          rw [← h2]
          simp only [List.length_cons] at hle ⊢
          omega
      | none =>
          rw [hrec] at h
          by_cases hcond : a = '\n' ∧ b = '\n'
          · rw [if_pos hcond] at h
            injection h with h2
            rw [← h2]
            simp only [List.length_cons]
            omega
          · rw [if_neg hcond] at h
            cases h

theorem endsNlNl_iff (l : List Char) :
    endsNlNl l = true ↔ ∃ t, l.reverse = '\n' :: '\n' :: t := by
  unfold endsNlNl
  split
  next t heq => exact iff_of_true rfl ⟨t, heq⟩
  next heq =>
    apply iff_of_false
    · simp
    · rintro ⟨t, ht⟩
      exact heq t ht

theorem endsNlNl_cons (a : Char) (x : List Char) (h : endsNlNl x = true) :
    endsNlNl (a :: x) = true := by
  rw [endsNlNl_iff] at h ⊢
  obtain ⟨t, ht⟩ := h
  exact ⟨t ++ [a], by rw [List.reverse_cons, ht]; rfl⟩

theorem endsNlNl_append_right (b : List Char) (hb : endsNlNl b = true) :
    ∀ a : List Char, endsNlNl (a ++ b) = true := by
  intro a
  induction a with
  | nil => exact hb
  | cons c a ih => exact endsNlNl_cons c (a ++ b) ih

theorem lastNlNl_take_ends : ∀ (l : List Char) (i : Nat),
    lastNlNl l = some i → endsNlNl (l.take (i + 2)) = true
  | [], i, h => by simp [lastNlNl] at h
  | [_], i, h => by simp [lastNlNl] at h
  | a :: b :: rest, i, h => by
      simp only [lastNlNl] at h
      cases hrec : lastNlNl (b :: rest) with
      | some j =>
          rw [hrec] at h
          injection h with h2
          rw [← h2]
          rw [show j + 1 + 2 = (j + 2) + 1 by omega, List.take_succ_cons]
          exact endsNlNl_cons a _ (lastNlNl_take_ends (b :: rest) j hrec)
      | none =>
          rw [hrec] at h
          by_cases hcond : a = '\n' ∧ b = '\n'
          · rw [if_pos hcond] at h
            injection h with h2
            rw [← h2]
            obtain ⟨ha, hb⟩ := hcond
            subst ha
            subst hb
            rfl
          · rw [if_neg hcond] at h
            cases h

theorem parseB_split (lex : List Char → List Token) (H : SplitSafe lex)
    {consumed b : List Char} (hc : consumed = [] ∨ endsNlNl consumed = true)
    (hb : b ≠ []) :
    parseBlocks lex (consumed ++ b) = parseBlocks lex consumed ++ parseBlocks lex b := by
  cases hc with
  | inl he => subst he; rfl
  | inr he => exact H consumed b he hb

theorem fcc_ends (buf : List Char) (hc : findCompleteContent buf ≠ []) :
    endsNlNl (findCompleteContent buf) = true := by
  unfold findCompleteContent at hc ⊢
  cases hl : lastNlNl buf with
  | none => rw [hl] at hc; exact absurd rfl hc
  | some i => exact lastNlNl_take_ends buf i hl

theorem fcc_take_drop (buf : List Char) (hc : findCompleteContent buf ≠ []) :
    findCompleteContent buf ++ buf.drop (findCompleteContent buf).length = buf := by
  unfold findCompleteContent at hc ⊢
  cases hl : lastNlNl buf with
  | none => rw [hl] at hc; exact absurd rfl hc
  | some i =>
      rw [List.length_take]
      have := lastNlNl_le buf i hl
      rw [Nat.min_eq_left this]
      exact List.take_append_drop _ _

theorem processBuffer_false_step (lex : List Char → List Token) (width : Int)
    (H : SplitSafe lex) (st : SState) (consumed : List Char)
    (hinv : StreamInv lex width st consumed) :
    ∃ consumed', StreamInv lex width (processBuffer lex width false st) consumed' ∧
      consumed' ++ (processBuffer lex width false st).buffer = consumed ++ st.buffer := by
  obtain ⟨hdoc, hend⟩ := hinv
  by_cases h0 : st.buffer = []
  · have hst : processBuffer lex width false st = st := by simp [processBuffer, h0]
    exact ⟨consumed, ⟨by rw [hst]; exact hdoc, hend⟩, by rw [hst]⟩
  · by_cases hc : findCompleteContent st.buffer = []
    · have hst : processBuffer lex width false st = st := by simp [processBuffer, h0, hc]
      exact ⟨consumed, ⟨by rw [hst]; exact hdoc, hend⟩, by rw [hst]⟩
    · by_cases hb : (parseBlocks lex (findCompleteContent st.buffer)).isEmpty = true
      · have hst : processBuffer lex width false st = st := by
          simp [processBuffer, h0, hc, hb]
        exact ⟨consumed, ⟨by rw [hst]; exact hdoc, hend⟩, by rw [hst]⟩
      · have hst : processBuffer lex width false st =
            { st with
              document := pushBlocks width st.document
                (parseBlocks lex (findCompleteContent st.buffer))
              buffer := st.buffer.drop (findCompleteContent st.buffer).length } := by
          simp [processBuffer, h0, hc, hb]
        refine ⟨consumed ++ findCompleteContent st.buffer, ⟨?_, ?_⟩, ?_⟩
        · rw [hst]
          show pushBlocks width st.document
              (parseBlocks lex (findCompleteContent st.buffer)) = _
          rw [hdoc, ← pushBlocks_append, parseB_split lex H hend hc]
        · right
          exact endsNlNl_append_right _ (fcc_ends st.buffer hc) consumed
        · rw [hst]
          show (consumed ++ findCompleteContent st.buffer) ++
              st.buffer.drop (findCompleteContent st.buffer).length = consumed ++ st.buffer
          rw [List.append_assoc, fcc_take_drop st.buffer hc]

theorem finalize_step (lex : List Char → List Token) (width : Int)
    (H : SplitSafe lex) (st : SState) (consumed : List Char)
    (hinv : StreamInv lex width st consumed) :
    (finalizeS lex width st).document =
      pushBlocks width ⟨[], [], 0⟩ (parseBlocks lex (consumed ++ st.buffer)) := by
  obtain ⟨hdoc, hend⟩ := hinv
  by_cases h0 : st.buffer = []
  · have hst : processBuffer lex width true st = st := by simp [processBuffer, h0]
    simp only [finalizeS]
    rw [hst, h0, List.append_nil]
    exact hdoc
  · by_cases hb : (parseBlocks lex st.buffer).isEmpty = true
    · have hst : processBuffer lex width true st = st := by simp [processBuffer, h0, hb]
      simp only [finalizeS]
      rw [hst, hdoc, parseB_split lex H hend h0, List.isEmpty_iff.mp hb, List.append_nil]
    · have hst : processBuffer lex width true st =
          { st with
            document := pushBlocks width st.document (parseBlocks lex st.buffer)
            buffer := [] } := by
        simp [processBuffer, h0, hb]
      simp only [finalizeS]
      rw [hst]
      show pushBlocks width st.document (parseBlocks lex st.buffer) = _
      rw [hdoc, ← pushBlocks_append, parseB_split lex H hend h0]

theorem runAppends_step (lex : List Char → List Token) (width : Int)
    (H : SplitSafe lex) : ∀ (frags : List (List Char)) (st : SState)
    (consumed : List Char), StreamInv lex width st consumed →
    ∃ consumed', StreamInv lex width (runAppends lex width st frags) consumed' ∧
      consumed' ++ (runAppends lex width st frags).buffer =
        consumed ++ st.buffer ++ frags.flatten := by
  intro frags
  induction frags with
  | nil => intro st consumed h; exact ⟨consumed, h, by simp [runAppends]⟩
  | cons f fs ih =>
      intro st consumed h
      have h1 : StreamInv lex width { st with buffer := st.buffer ++ f } consumed := h
      obtain ⟨c', hinv', heq'⟩ :=
        processBuffer_false_step lex width H { st with buffer := st.buffer ++ f } consumed h1
      obtain ⟨c'', hinv'', heq''⟩ :=
        ih (processBuffer lex width false { st with buffer := st.buffer ++ f }) c' hinv'
      have heq2 : c' ++
          (processBuffer lex width false { st with buffer := st.buffer ++ f }).buffer =
          consumed ++ (st.buffer ++ f) := heq'
      refine ⟨c'', hinv'', ?_⟩
      show c'' ++ (runAppends lex width
          (processBuffer lex width false { st with buffer := st.buffer ++ f }) fs).buffer =
        consumed ++ st.buffer ++ (f :: fs).flatten
      rw [heq'', heq2]
      simp [List.append_assoc]

/-- C4, amended: streaming equivalence holds for every lexer satisfying the
prefix-splitting property at blank-line boundaries — for such a lexer, any
fragmentation of the content followed by finalize yields exactly the one-shot
document.  (As stated the claim fails: the flush boundary is the last blank
line of the buffer, and a blank line inside a fenced code block splits the
parse; see the counterexample.) -/
theorem claim_C4_amended : ∀ (lex : List Char → List Token) (width : Int),
    SplitSafe lex →
    ∀ frags : List (List Char),
      streamDocument lex width frags = createDocument lex frags.flatten width := by
  intro lex width H frags
  have hinv0 : StreamInv lex width initialSState [] := ⟨rfl, Or.inl rfl⟩
  obtain ⟨c', hinv', heq'⟩ := runAppends_step lex width H frags initialSState [] hinv0
  unfold streamDocument
  rw [finalize_step lex width H _ c' hinv']
  rw [createDocument_eq_pushBlocks]
  congr 1
  rw [heq']
  rfl

theorem parseBlocks_lexEmpty (x : List Char) : parseBlocks lexEmpty x = [] := by
  unfold parseBlocks lexEmpty
  split <;> simp

/-- Witness for the amended C4: the trivial empty lexer satisfies the
splitting hypothesis, and the equivalence holds on a concrete fragment
list. -/
theorem claim_C4_amended_witness :
    SplitSafe lexEmpty ∧
    streamDocument lexEmpty 80 ["ab".data] =
      createDocument lexEmpty (List.flatten ["ab".data]) 80 :=
  ⟨fun a b _ _ => by simp [parseBlocks_lexEmpty],
    claim_C4_amended lexEmpty 80 (fun a b _ _ => by simp [parseBlocks_lexEmpty]) ["ab".data]⟩

/-- C4, counterexample to the claim as stated: against the spec-modelled
CommonMark-ish tokenizer, the content of a fenced code block containing a
blank line parses to one code block in one shot, but splitting the stream at
the interior blank line makes the streaming assembler flush an unterminated
fence early, so the streamed document differs from the one-shot document
(three blocks against one). -/
theorem claim_C4_cex :
    List.flatten ["```\nA\n\n".data, "B\n```".data] = "```\nA\n\nB\n```".data ∧
    (streamDocument lexModel 80 ["```\nA\n\n".data, "B\n```".data]).blocks.length = 3 ∧
    (createDocument lexModel "```\nA\n\nB\n```".data 80).blocks.length = 1 ∧
    streamDocument lexModel 80 ["```\nA\n\n".data, "B\n```".data] ≠
      createDocument lexModel "```\nA\n\nB\n```".data 80 := by
  refine ⟨by decide, by decide, by decide, ?_⟩
  intro h
  have h2 := congrArg (fun d => d.blocks.length) h
  revert h2
  decide

-- ### Claim C8: the ANSI adapter

theorem hexToRgb_eq_opt (s : List Char) : hexToRgb s = optHashColor s := rfl

theorem colorCodes_eq (base : Nat) (o : Option (List Char)) :
    colorCodes base o = specColorCodes optHashColor base o := by
  cases o with
  | none => rfl
  | some s =>
      cases s with
      | nil => rfl
      | cons c t =>
          simp only [colorCodes, specColorCodes, truthyS, Option.getD, if_true,
            hexToRgb_eq_opt]

/-- C8, amended: spanToAnsi renders every span exactly as specified — SGR
codes in the order bold (1), dim (2), italic (3), underline (4), then the
38;2;r;g;b foreground and 48;2;r;g;b background, the bare text when no codes
apply, a reset after every span that produced codes — where a colour
contributes its codes exactly when it matches the anchored six-hex-digit
pattern with an optional leading hash (the hash is optional in the source
regular expression, not mandatory as the claim's #rrggbb reading would have
it); unparsable colours are silently dropped, and the adapter is a total
function, so no colour can make it throw. -/
theorem claim_C8_amended : ∀ span : StyledSpan,
    spanToAnsi span = spanToAnsiWith optHashColor span := by
  intro span
  unfold spanToAnsi spanToAnsiWith
  dsimp only
  rw [colorCodes_eq 38 span.style.fg, colorCodes_eq 48 span.style.bg]

/-- C8, counterexample to the claim as stated: the colour string ff0000
carries no leading hash, so it does not match a strict #rrggbb pattern, yet
the adapter emits foreground codes for it rather than omitting them. -/
theorem claim_C8_cex :
    spanToAnsi ⟨"x".data, { fg := some "ff0000".data }⟩ =
      "\x1b[38;2;255;0;0mx\x1b[0m".data ∧
    spanToAnsiWith strictHashColor ⟨"x".data, { fg := some "ff0000".data }⟩ = "x".data ∧
    spanToAnsi ⟨"x".data, { fg := some "ff0000".data }⟩ ≠
      spanToAnsiWith strictHashColor ⟨"x".data, { fg := some "ff0000".data }⟩ :=
  ⟨by decide, by decide, by decide⟩

-- ### Claim C9: the greedy word wrap

theorem appendMerge_ne_nil : ∀ (cl : List StyledSpan) (w : List Char) (st : Style),
    appendMerge cl w st ≠ []
  | [], _, _ => by simp [appendMerge]
  | [l], w, st => by
      unfold appendMerge
      split <;> simp
  | x :: y :: rest, _, _ => by simp [appendMerge]

theorem mergeWords_snoc (g : List (Style × List Char)) (w : Style × List Char) :
    mergeWords (g ++ [w]) = appendMerge (mergeWords g) w.2 w.1 := by
  unfold mergeWords
  rw [List.foldl_append]
  rfl

theorem foldl_appendMerge_ne_nil :
    ∀ (g : List (Style × List Char)) (acc : List StyledSpan), acc ≠ [] →
    g.foldl (fun acc w => appendMerge acc w.2 w.1) acc ≠ []
  | [], _, h => h
  | w :: g, acc, _ =>
      foldl_appendMerge_ne_nil g _ (appendMerge_ne_nil acc w.2 w.1)

theorem mergeWords_ne_nil (g : List (Style × List Char)) (h : g ≠ []) :
    mergeWords g ≠ [] := by
  cases g with
  | nil => exact absurd rfl h
  | cons w g =>
      unfold mergeWords
      rw [List.foldl_cons]
      exact foldl_appendMerge_ne_nil g _ (appendMerge_ne_nil [] w.2 w.1)

theorem appendMerge_head_style : ∀ (y : StyledSpan) (t : List StyledSpan)
    (w : List Char) (st : Style),
    ∃ txt rest, appendMerge (y :: t) w st = ⟨txt, y.style⟩ :: rest
  | y, [], w, st => by
      unfold appendMerge
      split
      · exact ⟨y.text ++ w, [], rfl⟩
      · exact ⟨y.text, [⟨w, st⟩], rfl⟩
  | y, z :: t, w, st => by
      simp only [appendMerge]
      exact ⟨y.text, appendMerge (z :: t) w st, rfl⟩

theorem chain_appendMerge : ∀ (cl : List StyledSpan) (w : List Char) (st : Style),
    List.Chain' (fun a b => stylesEqual a.style b.style = false) cl →
    List.Chain' (fun a b => stylesEqual a.style b.style = false) (appendMerge cl w st)
  | [], w, st, _ => by simp [appendMerge]
  | [l], w, st, _ => by
      unfold appendMerge
      split
      case isTrue => exact List.chain'_singleton _
      case isFalse hne =>
        refine List.chain'_pair.mpr ?_
        revert hne
        cases stylesEqual l.style st <;> simp
  | x :: y :: rest, w, st, hch => by
      simp only [appendMerge]
      obtain ⟨txt, r2, heq⟩ := appendMerge_head_style y rest w st
      rw [heq, List.chain'_cons]
      constructor
      · exact (List.chain'_cons.mp hch).1
      · rw [← heq]
        exact chain_appendMerge (y :: rest) w st (List.chain'_cons.mp hch).2

theorem chain_foldl : ∀ (g : List (Style × List Char)) (acc : List StyledSpan),
    List.Chain' (fun a b => stylesEqual a.style b.style = false) acc →
    List.Chain' (fun a b => stylesEqual a.style b.style = false)
      (g.foldl (fun acc w => appendMerge acc w.2 w.1) acc)
  | [], _, h => h
  | w :: g, acc, h => chain_foldl g _ (chain_appendMerge acc w.2 w.1 h)

theorem chain_mergeWords (g : List (Style × List Char)) :
    List.Chain' (fun a b => stylesEqual a.style b.style = false) (mergeWords g) :=
  chain_foldl g [] List.chain'_nil

theorem textSum_appendMerge : ∀ (cl : List StyledSpan) (w : List Char) (st : Style),
    ((appendMerge cl w st).map (fun s => s.text.length)).sum =
      (cl.map (fun s => s.text.length)).sum + w.length
  | [], w, st => by simp [appendMerge]
  | [l], w, st => by
      unfold appendMerge
      split <;> simp <;> omega
  | x :: y :: rest, w, st => by
      simp only [appendMerge, List.map_cons, List.sum_cons]
      rw [textSum_appendMerge (y :: rest) w st]
      simp only [List.map_cons, List.sum_cons]
      omega

theorem textSum_foldl : ∀ (g : List (Style × List Char)) (acc : List StyledSpan),
    (((g.foldl (fun acc w => appendMerge acc w.2 w.1) acc)).map
        (fun s => s.text.length)).sum =
      (acc.map (fun s => s.text.length)).sum + wordsWidth g
  | [], acc => by simp [wordsWidth]
  | w :: g, acc => by
      rw [List.foldl_cons, textSum_foldl g _, textSum_appendMerge]
      simp [wordsWidth]
      omega

theorem textSum_mergeWords (g : List (Style × List Char)) :
    ((mergeWords g).map (fun s => s.text.length)).sum = wordsWidth g := by
  unfold mergeWords
  rw [textSum_foldl g []]
  simp

theorem splitRuns_mem (l : List Char) : ∀ w ∈ splitRuns l, w ≠ [] ∧ isRun w = true := by
  induction l with
  | nil => simp [splitRuns]
  | cons c cs ih =>
      intro w hw
      unfold splitRuns at hw
      cases hsr : splitRuns cs with
      | nil =>
          rw [hsr] at hw
          simp only [List.mem_singleton] at hw
          subst hw
          exact ⟨by simp, by simp [isRun]⟩
      | cons r rs =>
          rw [hsr] at hw
          cases r with
          | nil =>
              simp only [List.mem_cons] at hw
              cases hw with
              | inl he => subst he; exact ⟨by simp, by simp [isRun]⟩
              | inr ht => exact ih w (by rw [hsr]; exact List.mem_cons_of_mem _ ht)
          | cons d ds =>
              dsimp only at hw
              have hhead := ih (d :: ds) (by rw [hsr]; exact List.mem_cons_self _ _)
              by_cases hcd : (isWs c == isWs d) = true
              · rw [if_pos hcd] at hw
                simp only [List.mem_cons] at hw
                cases hw with
                | inl he =>
                    subst he
                    refine ⟨by simp, ?_⟩
                    have hdc : isWs c = isWs d := by simpa using hcd
                    have hall : ∀ e ∈ ds, isWs e = isWs d := by
                      have := hhead.2
                      simp only [isRun, List.all_eq_true, beq_iff_eq] at this
                      exact this
                    simp only [isRun, List.all_eq_true, beq_iff_eq, List.mem_cons]
                    intro e he
                    cases he with
                    | inl hed => subst hed; exact hdc.symm
                    | inr hee => rw [hall e hee, hdc]
                | inr ht => exact ih w (by rw [hsr]; exact List.mem_cons_of_mem _ ht)
              · rw [if_neg hcd] at hw
                simp only [List.mem_cons] at hw
                rcases hw with he | he | ht
                · subst he; exact ⟨by simp, by simp [isRun]⟩
                · subst he; exact hhead
                · exact ih w (by rw [hsr]; exact List.mem_cons_of_mem _ ht)

theorem splitRuns_flatten (l : List Char) : (splitRuns l).flatten = l := by
  induction l with
  | nil => rfl
  | cons c cs ih =>
      unfold splitRuns
      cases hsr : splitRuns cs with
      | nil =>
          rw [hsr] at ih
          simp only [List.flatten_nil] at ih
          simp [← ih]
      | cons r rs =>
          rw [hsr] at ih
          cases r with
          | nil =>
              simp only [List.flatten_cons, List.nil_append] at ih
              simp [ih]
          | cons d ds =>
              dsimp only
              by_cases hcd : (isWs c == isWs d) = true
              · rw [if_pos hcd]
                simp only [List.flatten_cons, List.cons_append] at ih ⊢
                rw [ih]
              · rw [if_neg hcd]
                simp only [List.flatten_cons, List.cons_append, List.nil_append] at ih ⊢
                rw [ih]

theorem wordStream_cons (s : StyledSpan) (ss : List StyledSpan) :
    wordStream (s :: ss) =
      (splitRuns s.text).map (fun w => (s.style, w)) ++ wordStream ss := by
  simp [wordStream]

theorem wordStream_runs (spans : List StyledSpan) :
    ∀ w ∈ wordStream spans, w.2 ≠ [] ∧ isRun w.2 = true := by
  induction spans with
  | nil => simp [wordStream]
  | cons s ss ih =>
      intro w hw
      rw [wordStream_cons, List.mem_append] at hw
      cases hw with
      | inl hmap =>
          rw [List.mem_map] at hmap
          obtain ⟨run, hrunmem, heq⟩ := hmap
          obtain ⟨h1, h2⟩ := splitRuns_mem s.text run hrunmem
          rw [← heq]
          exact ⟨h1, h2⟩
      | inr ht => exact ih w ht

theorem greedyGo_append (width : Int) : ∀ (xs ys : List (Style × List Char))
    (gs : GroupState),
    greedyGo width gs (xs ++ ys) = greedyGo width (greedyGo width gs xs) ys := by
  intro xs
  induction xs with
  | nil => intro ys gs; rfl
  | cons x xs ih => intro ys gs; simp only [List.cons_append, greedyGo]; exact ih ys _

theorem merge_if_eq (cur : List (Style × List Char)) :
    (if (mergeWords cur).isEmpty then ([] : List RenderedLine)
      else [⟨mergeWords cur⟩]) =
      (if cur.isEmpty then [] else [cur]).map
        (fun g => (⟨mergeWords g⟩ : RenderedLine)) := by
  cases cur with
  | nil => rfl
  | cons a t =>
      have hne := mergeWords_ne_nil (a :: t) (by simp)
      have hf : (mergeWords (a :: t)).isEmpty = false := by
        cases hm : mergeWords (a :: t) with
        | nil => exact absurd hm hne
        | cons x xs => rfl
      simp [hf]

theorem wrapStep_rel (width : Int) (ws : WrapState) (gs : GroupState)
    (st : Style) (w : List Char) (h : WrapRel ws gs) :
    WrapRel (wrapStep width ws st w) (greedyStep width gs (st, w)) := by
  obtain ⟨h1, h2, h3⟩ := h
  have hcond : ((ws.currentWidth : Int) + (w.length : Int) ≤ width) ↔
      ((gs.curWidth : Int) + (((st, w).2.length : Nat) : Int) ≤ width) := by
    rw [h3]
  unfold wrapStep greedyStep
  by_cases hfit : (ws.currentWidth : Int) + (w.length : Int) ≤ width
  · rw [if_pos hfit, if_pos (hcond.mp hfit)]
    refine ⟨h1, ?_, ?_⟩
    · show appendMerge ws.currentLine w st = mergeWords (gs.cur ++ [(st, w)])
      rw [h2, mergeWords_snoc]
    · show ws.currentWidth + w.length = gs.curWidth + (st, w).2.length
      rw [h3]
  · rw [if_neg hfit, if_neg (fun hx => hfit (hcond.mpr hx))]
    refine ⟨?_, rfl, rfl⟩
    show ws.lines ++ (if ws.currentLine.isEmpty then [] else [⟨ws.currentLine⟩]) =
      (gs.groups ++ (if gs.cur.isEmpty then [] else [gs.cur])).map
        (fun g => (⟨mergeWords g⟩ : RenderedLine))
    rw [h1, h2, List.map_append, merge_if_eq]

theorem wrapWords_rel (width : Int) (st : Style) :
    ∀ (words : List (List Char)) (ws : WrapState) (gs : GroupState), WrapRel ws gs →
    WrapRel (wrapWords width st ws words)
      (greedyGo width gs (words.map (fun w => (st, w))))
  | [], _, _, h => h
  | w :: words, ws, gs, h => by
      simp only [List.map_cons, wrapWords, greedyGo]
      exact wrapWords_rel width st words _ _ (wrapStep_rel width ws gs st w h)

theorem wrapSpansGo_rel (width : Int) : ∀ (spans : List StyledSpan)
    (ws : WrapState) (gs : GroupState), WrapRel ws gs →
    WrapRel (wrapSpansGo width ws spans) (greedyGo width gs (wordStream spans))
  | [], _, _, h => h
  | s :: spans, ws, gs, h => by
      rw [wordStream_cons, greedyGo_append]
      exact wrapSpansGo_rel width spans _ _
        (wrapWords_rel width s.style (splitRuns s.text) ws gs h)

theorem wrapSpans_eq_spec (spans : List StyledSpan) (width : Int) :
    wrapSpans spans width = wrapSpansSpec spans width := by
  obtain ⟨h1, h2, _⟩ :=
    wrapSpansGo_rel width spans ⟨[], [], 0⟩ ⟨[], [], 0⟩ ⟨rfl, rfl, rfl⟩
  unfold wrapSpans wrapSpansSpec greedyGroups
  dsimp only
  rw [h1, h2, merge_if_eq, ← List.map_append]

theorem greedyGo_ok (width : Int) (hw : 0 ≤ width) :
    ∀ (ws : List (Style × List Char)) (gs : GroupState),
    (∀ w ∈ ws, w.2 ≠ [] ∧ isRun w.2 = true) →
    (∀ g ∈ gs.groups, GroupOK width g) →
    gs.curWidth = wordsWidth gs.cur →
    (gs.cur = [] ∨ GroupOK width gs.cur) →
    ((∀ g ∈ (greedyGo width gs ws).groups, GroupOK width g) ∧
      (greedyGo width gs ws).curWidth = wordsWidth (greedyGo width gs ws).cur ∧
      ((greedyGo width gs ws).cur = [] ∨ GroupOK width (greedyGo width gs ws).cur)) := by
  intro ws
  induction ws with
  | nil => intro gs _ hg hwd hc; exact ⟨hg, hwd, hc⟩
  | cons w ws ih =>
      intro gs h hg hwd hc
      have hwmem := h w (List.mem_cons_self _ _)
      apply ih
      · intro x hx
        exact h x (List.mem_cons_of_mem _ hx)
      · unfold greedyStep
        by_cases hfit : (gs.curWidth + w.2.length : Int) ≤ width
        · rw [if_pos hfit]
          exact hg
        · rw [if_neg hfit]
          intro g hgmem
          simp only [List.mem_append] at hgmem
          cases hgmem with
          | inl hmem => exact hg g hmem
          | inr hmem =>
              cases hcur : gs.cur with
              | nil => rw [hcur] at hmem; simp at hmem
              | cons a t =>
                  rw [hcur] at hmem
                  simp only [List.isEmpty_cons, Bool.false_eq_true, if_false,
                    List.mem_singleton] at hmem
                  subst hmem
                  cases hc with
                  | inl he => rw [hcur] at he; cases he
                  | inr hok => rw [← hcur]; exact hok
      · unfold greedyStep
        by_cases hfit : (gs.curWidth + w.2.length : Int) ≤ width
        · rw [if_pos hfit]
          simp only [wordsWidth, List.map_append, List.sum_append, List.map_cons,
            List.sum_cons, List.map_nil, List.sum_nil]
          unfold wordsWidth at hwd
          omega
        · rw [if_neg hfit]
          simp [wordsWidth]
      · unfold greedyStep
        by_cases hfit : (gs.curWidth + w.2.length : Int) ≤ width
        · rw [if_pos hfit]
          right
          left
          have : wordsWidth (gs.cur ++ [w]) = gs.curWidth + w.2.length := by
            simp only [wordsWidth, List.map_append, List.sum_append, List.map_cons,
              List.sum_cons, List.map_nil, List.sum_nil]
            unfold wordsWidth at hwd
            omega
          rw [this]
          push_cast
          push_cast at hfit
          omega
        · rw [if_neg hfit]
          right
          by_cases hlen : ((w.2.length : Int)) ≤ width
          · left
            simpa [wordsWidth] using hlen
          · right
            exact ⟨w.1, w.2, rfl, by omega, hwmem.1, hwmem.2⟩

theorem greedyGroups_ok (width : Int) (hw : 0 ≤ width)
    (ws : List (Style × List Char)) (h : ∀ w ∈ ws, w.2 ≠ [] ∧ isRun w.2 = true) :
    ∀ g ∈ greedyGroups width ws, GroupOK width g := by
  unfold greedyGroups
  obtain ⟨hg, _, hc⟩ := greedyGo_ok width hw ws ⟨[], [], 0⟩ h (by simp) rfl (Or.inl rfl)
  intro g hgmem
  dsimp only at hgmem
  rw [List.mem_append] at hgmem
  cases hgmem with
  | inl hmem => exact hg g hmem
  | inr hmem =>
      cases hcur : (greedyGo width ⟨[], [], 0⟩ ws).cur with
      | nil => rw [hcur] at hmem; simp at hmem
      | cons a t =>
          rw [hcur] at hmem
          simp only [List.isEmpty_cons, Bool.false_eq_true, if_false,
            List.mem_singleton] at hmem
          subst hmem
          cases hc with
          | inl he => rw [hcur] at he; cases he
          | inr hok => rw [← hcur]; exact hok

/-- C9: the wrap of the flattened inline spans (stated for every span list, so
in particular for the spans renderParagraph wraps) is exactly the specified
greedy algorithm: wrapSpans coincides with the greedy grouping of the word
stream followed by the merge of adjacent equal-style words; the result is
never empty; no output line holds two consecutive spans of equal style; and
every output line fits the width except a line holding a single unsplittable
word longer than the width. -/
theorem claim_C9 : ∀ (spans : List StyledSpan) (w : Int), 1 ≤ w →
    (wrapSpans spans w = wrapSpansSpec spans w ∧
     wrapSpans spans w ≠ [] ∧
     (∀ l ∈ wrapSpans spans w,
        List.Chain' (fun a b => stylesEqual a.style b.style = false) l.spans) ∧
     (∀ l ∈ wrapSpans spans w,
        ((lineWidth l : Int) ≤ w ∨
          ∃ s, l.spans = [s] ∧ (w < (s.text.length : Int)) ∧ isRun s.text = true))) := by
  intro spans w hw
  refine ⟨wrapSpans_eq_spec spans w, ?_, ?_, ?_⟩
  · unfold wrapSpans
    intro he
    dsimp only at he
    split at he <;> split at he <;> simp_all
  · intro l hl
    rw [wrapSpans_eq_spec spans w] at hl
    unfold wrapSpansSpec at hl
    dsimp only at hl
    split at hl
    · simp only [List.mem_singleton] at hl
      subst hl
      exact List.chain'_singleton _
    · rw [List.mem_map] at hl
      obtain ⟨g, _, hgl⟩ := hl
      rw [← hgl]
      exact chain_mergeWords g
  · intro l hl
    rw [wrapSpans_eq_spec spans w] at hl
    unfold wrapSpansSpec at hl
    dsimp only at hl
    split at hl
    · simp only [List.mem_singleton] at hl
      subst hl
      left
      simp only [lineWidth, List.map_cons, List.map_nil, List.sum_cons, List.sum_nil,
        List.length_nil]
      omega
    · rw [List.mem_map] at hl
      obtain ⟨g, hgmem, hgl⟩ := hl
      have hok := greedyGroups_ok w (by omega) (wordStream spans)
        (wordStream_runs spans) g hgmem
      cases hok with
      | inl hle =>
          left
          rw [← hgl]
          have hlw : lineWidth ⟨mergeWords g⟩ = wordsWidth g := textSum_mergeWords g
          rw [hlw]
          exact hle
      | inr hsingle =>
          obtain ⟨st, wd, hgeq, hlen, _, hrun⟩ := hsingle
          right
          refine ⟨⟨wd, st⟩, ?_, hlen, hrun⟩
          rw [← hgl, hgeq]
          rfl

/-- Witness for C9 on a concrete span list at width 3. -/
theorem claim_C9_witness :
    (1 : Int) ≤ 3 ∧
    (wrapSpans [⟨"ab cd".data, {}⟩] 3 = wrapSpansSpec [⟨"ab cd".data, {}⟩] 3 ∧
     wrapSpans [⟨"ab cd".data, {}⟩] 3 ≠ [] ∧
     (∀ l ∈ wrapSpans [⟨"ab cd".data, {}⟩] 3,
        List.Chain' (fun a b => stylesEqual a.style b.style = false) l.spans) ∧
     (∀ l ∈ wrapSpans [⟨"ab cd".data, {}⟩] 3,
        ((lineWidth l : Int) ≤ 3 ∨
          ∃ s, l.spans = [s] ∧ ((3 : Int) < (s.text.length : Int)) ∧
            isRun s.text = true))) :=
  ⟨by decide, claim_C9 [⟨"ab cd".data, {}⟩] 3 (by decide)⟩

end Mdv
